import Mathlib

/-!
# nsq-balancer: a shallow embedding of the health-check state machine, the pool
selection combinators and the balancer dispatch

Conventions of the embedding.

* Go's fixed-width signed integers are values of `Int` kept in range by the
  explicit two's-complement reductions `wrap32` and `wrap64`, applied wherever
  the Go code performs arithmetic on an `int32` or an `int64`.
* Go's `int` is taken to be 64 bits wide (amd64, arm64); `Options.Rise` and
  `Options.Fall` are therefore integers that may exceed the `int32` range of
  the counters they are compared with.
* A `time.Duration` is its `int64` number of nanoseconds.
* Backends are heap objects: a `Ptr` is the address of an `nsqBackend`, a
  `Heap` maps addresses to backend records, and a `pool` is a list of
  addresses, as the Go slice of interface values holding pointers is.
* A Go `nil` result is `none`; a Go panic is the outer `none` of a `Panics`
  value.
* The global `math/rand` source is a function giving, for the number of draws
  made so far and the bound asked for, the value returned.
-/

namespace NsqBalancer

/-! ## Machine integers -/

/-- Largest `int32`. -/
def maxInt32 : Int := 2147483647

/-- Smallest `int32`. -/
def minInt32 : Int := -2147483648

/-- Largest `int64` (`math.MaxInt64`). -/
def maxInt64 : Int := 9223372036854775807

/-- Smallest `int64`. -/
def minInt64 : Int := -9223372036854775808

/-- Two's-complement reduction of an integer to the `int32` range. -/
def wrap32 (x : Int) : Int := (x + 2147483648) % 4294967296 - 2147483648

/-- Two's-complement reduction of an integer to the `int64` range. -/
def wrap64 (x : Int) : Int :=
  (x + 9223372036854775808) % 18446744073709551616 - 9223372036854775808

/-! ## Durations (`time` package constants, in nanoseconds) -/

/-- The constant `time.Millisecond`. -/
def millisecond : Int := 1000000

/-- The constant `time.Second`. -/
def second : Int := 1000000000

/-- The constant `time.Minute`. -/
def minute : Int := 60000000000

/-- The constant `minCheckInterval = 100 * time.Millisecond` of balancer.go. -/
def minCheckInterval : Int := 100 * millisecond

/-! ## option.go -/

/-- The struct `Options` of option.go. -/
structure Options where
  Addr : String
  CheckInterval : Int
  Rise : Int
  Fall : Int
  deriving DecidableEq, Repr

/-- The method `Options.getCheckInterval` of option.go. -/
def Options.getCheckInterval (o : Options) : Int :=
  if o.CheckInterval = 0 then second
  else if o.CheckInterval < minCheckInterval then minCheckInterval
  else o.CheckInterval

/-- The method `Options.getRise` of option.go. -/
def Options.getRise (o : Options) : Int :=
  if o.Rise < 1 then 1 else o.Rise

/-- The method `Options.getFall` of option.go. -/
def Options.getFall (o : Options) : Int :=
  if o.Fall < 1 then 1 else o.Fall

/-! ## backend.go -/

/-- The struct `nsqBackend` of backend.go, without the client handle and the
tomb of the probe goroutine. `up`, `successes`, `failures` are `int32`,
`connections` and `latency` are `int64`. -/
structure nsqBackend where
  opt : Options
  up : Int
  successes : Int
  failures : Int
  connections : Int
  latency : Int
  deriving DecidableEq, Repr

namespace nsqBackend

/-- The method `Up`: the flag is read and compared with zero. -/
def Up (b : nsqBackend) : Bool := decide (b.up > 0)

/-- The method `Down`: the negation of `Up`. -/
def Down (b : nsqBackend) : Bool := !b.Up

/-- The method `Connections`. -/
def Connections (b : nsqBackend) : Int := b.connections

/-- The method `Latency`. -/
def Latency (b : nsqBackend) : Int := b.latency

/-- The method `incConnections`: an `int64` atomic add. -/
def incConnections (b : nsqBackend) (n : Int) : nsqBackend :=
  { b with connections := wrap64 (b.connections + n) }

/-- The method `updateStatus`, statement by statement: store zero in the
opposite counter, add one to the own counter (an `int32` add), undo the add
when the new value exceeds the threshold, compare-and-swap the flag when it
equals the threshold. -/
def updateStatus (b : nsqBackend) (success : Bool) : nsqBackend :=
  if success then
    let b1 := { b with failures := 0 }
    let rise := b1.opt.getRise
    let n := wrap32 (b1.successes + 1)
    let b2 := { b1 with successes := n }
    if n > rise then { b2 with successes := wrap32 (b2.successes + (-1)) }
    else if n = rise then (if b2.up = 0 then { b2 with up := 1 } else b2)
    else b2
  else
    let b1 := { b with successes := 0 }
    let fall := b1.opt.getFall
    let n := wrap32 (b1.failures + 1)
    let b2 := { b1 with failures := n }
    if n > fall then { b2 with failures := wrap32 (b2.failures + (-1)) }
    else if n = fall then (if b2.up = 1 then { b2 with up := 0 } else b2)
    else b2

/-- The method `ping`. The outcome of `client.Ping()` together with the two
clock readings is the argument: `none` when the liveness check returned an
error, `some d` when it succeeded and `d` nanoseconds elapsed. -/
def ping (b : nsqBackend) (probe : Option Int) : nsqBackend :=
  match probe with
  | none => b.updateStatus false
  | some d => ({ b with latency := d, connections := 1 }).updateStatus true

/-- The method `startLoop` up to the moment it returns: the interval is read
and one probe is made synchronously; the goroutine it then starts runs after
the return. -/
def startLoop (b : nsqBackend) (probe : Option Int) : nsqBackend :=
  b.ping probe

end nsqBackend

/-- The struct literal of `newNsqBackend` (flag 1, counters 0, connections
`1e6`, latency one minute): the backend before any probe, the initial state of
the health state machine. -/
def initialBackend (opt : Options) : nsqBackend :=
  { opt := opt, up := 1, successes := 0, failures := 0,
    connections := 1000000, latency := minute }

/-- The constructor `newNsqBackend`: the struct literal followed by
`startLoop`, whose synchronous probe has the outcome `probe`. -/
def newNsqBackend (opt : Options) (probe : Option Int) : nsqBackend :=
  (initialBackend opt).startLoop probe

/-- A sequential series of `updateStatus` calls, first call first. -/
def runUpdates (b : nsqBackend) : List Bool → nsqBackend
  | [] => b
  | s :: rest => runUpdates (b.updateStatus s) rest

/-- The call `updateStatus(false)` made `k` times in a row. -/
def failTimes : Nat → nsqBackend → nsqBackend
  | 0, b => b
  | k + 1, b => failTimes k (b.updateStatus false)

/-- The call `updateStatus(true)` made `k` times in a row. -/
def succeedTimes : Nat → nsqBackend → nsqBackend
  | 0, b => b
  | k + 1, b => succeedTimes k (b.updateStatus true)

/-- Backend states reachable from the initial state of a configuration by a
sequential series of `updateStatus` calls. -/
def Reachable (opt : Options) (b : nsqBackend) : Prop :=
  ∃ trace : List Bool, b = runUpdates (initialBackend opt) trace

/-! ## pool.go -/

/-- The address of a backend: the pointer a `backender` interface value holds. -/
abbrev Ptr := Nat

/-- The backends in memory, by address. -/
abbrev Heap := Ptr → nsqBackend

/-- The type `pool` of pool.go: a slice of backends, held by address. -/
abbrev pool := List Ptr

/-- A computation that may panic: the outer `none` is the panic. -/
abbrev Panics (α : Type) := Option α

/-- The global source of `math/rand`: `rnd k n` is the value that the call made
after `k` earlier draws returns when asked for a number below `n`. -/
abbrev RandSrc := Nat → Int → Int

/-- The contract of `rand.Intn` and `rand.Int63n`: for a positive bound the
value returned lies in `[0, n)`. -/
def RandSrc.Valid (rnd : RandSrc) : Prop :=
  ∀ k n, 0 < n → 0 ≤ rnd k n ∧ rnd k n < n

/-- The helper `pool.all`: the backends meeting a criterion, in pool order. -/
def pool.all (p : pool) (criteria : Ptr → Bool) : pool :=
  p.filter criteria

/-- The helper `pool.first`: the first backend meeting a criterion, or nil. -/
def pool.first (p : pool) (criteria : Ptr → Bool) : Option Ptr :=
  p.find? criteria

/-- The method `pool.Up`. -/
def pool.Up (h : Heap) (p : pool) : pool :=
  pool.all p (fun b => (h b).Up)

/-- The method `pool.FirstUp`. -/
def pool.FirstUp (h : Heap) (p : pool) : Option Ptr :=
  pool.first p (fun b => (h b).Up)

/-- The loop of `pool.MinUp` from index `n` on; the state is `(pos, min)`. -/
def pool.minUpLoop (h : Heap) (minimum : Ptr → Int) :
    List Ptr → Nat → Int × Int → Int × Int
  | [], _, acc => acc
  | b :: rest, n, acc =>
    pool.minUpLoop h minimum rest (n + 1)
      (if (h b).Up then
        (if minimum b < acc.2 then ((n : Int), minimum b) else acc)
       else acc)

/-- The method `pool.MinUp`: the loop starts from `pos = -1` and
`min = math.MaxInt64`; a negative `pos` gives nil, otherwise `p[pos]`. -/
def pool.MinUp (h : Heap) (p : pool) (minimum : Ptr → Int) : Option Ptr :=
  let r := pool.minUpLoop h minimum p 0 (-1, maxInt64)
  if r.1 < 0 then none else p[r.1.toNat]?

/-- The method `pool.Random`: nil for an empty pool, and no draw is made;
otherwise one draw `rand.Intn(size)` and the element at that index (an index
out of range panics). The second component is the number of draws made so
far. -/
def pool.Random (rnd : RandSrc) (k : Nat) (p : pool) : Panics (Option Ptr × Nat) :=
  if p.length > 0 then
    let r := rnd k (p.length : Int)
    if r < 0 then none
    else
      match p[r.toNat]? with
      | some b => some (some b, k + 1)
      | none => none
  else some (none, k)

/-- The method `pool.At`: Go's remainder truncates towards zero, and a
negative remainder is multiplied by `-1`. -/
def pool.At (p : pool) (pos : Int) : Option Ptr :=
  let n : Int := (p.length : Int)
  if n < 1 then none
  else
    let pos1 := Int.tmod pos n
    let pos2 := if pos1 < 0 then wrap64 (pos1 * (-1)) else pos1
    p[pos2.toNat]?

/-- The first loop of `pool.WeightedRandom`: the running `(min, max)` of the
weights. -/
def pool.weightBounds : List Int → Int × Int → Int × Int
  | [], acc => acc
  | w :: rest, acc =>
    pool.weightBounds rest
      (if w < acc.1 then w else acc.1, if w > acc.2 then w else acc.2)

/-- The second loop of `pool.WeightedRandom`, the weights: each weight `w`
becomes `min + max - w` in `int64` arithmetic. -/
def pool.transformWeights (mn mx : Int) (ws : List Int) : List Int :=
  ws.map (fun w => wrap64 (wrap64 (mn + mx) - w))

/-- The second loop of `pool.WeightedRandom`, the sum: an `int64` running sum
of the transformed weights. -/
def pool.sumWeights : List Int → Int → Int
  | [], sum => sum
  | w :: rest, sum => pool.sumWeights rest (wrap64 (sum + w))

/-- The third loop of `pool.WeightedRandom`: subtract each transformed weight
from the mark and return the first backend at which the mark is not positive;
nil when the loop runs out. -/
def pool.walk : List Ptr → List Int → Int → Option Ptr
  | b :: ps, w :: ws, mark =>
    if wrap64 (mark - w) ≤ 0 then some b else pool.walk ps ws (wrap64 (mark - w))
  | _, _, _ => none

/-- The method `pool.WeightedRandom`: nil for an empty pool; `rand.Int63n`
panics when the sum is not positive. -/
def pool.WeightedRandom (rnd : RandSrc) (k : Nat) (p : pool) (weight : Ptr → Int) :
    Panics (Option Ptr × Nat) :=
  if p.length < 1 then some (none, k)
  else
    let ws := p.map weight
    let mm := pool.weightBounds ws (maxInt64, 0)
    let ws1 := pool.transformWeights mm.1 mm.2 ws
    let sum := pool.sumWeights ws1 0
    if sum ≤ 0 then none
    else some (pool.walk p ws1 (rnd k sum), k + 1)

/-! ## balancer.go -/

/-- The six declared values of `BalanceMode`. -/
inductive BalanceMode where
  | ModeLeastConn
  | ModeFirstUp
  | ModeMinLatency
  | ModeRandom
  | ModeWeightedLatency
  | ModeRoundRobin
  deriving DecidableEq, Repr

/-- The struct `Balancer`: the pool, the mode and the `int32` cursor. -/
structure Balancer where
  selector : pool
  mode : BalanceMode
  cursor : Int
  deriving DecidableEq, Repr

/-- What a call of `pickNext` reads and writes besides the balancer: the
backends and the number of draws made from the random source. -/
structure World where
  heap : Heap
  draws : Nat

/-- The weight function of `ModeWeightedLatency`: `factor * factor` in `int64`
arithmetic. -/
def latencyWeight (h : Heap) (b : Ptr) : Int :=
  wrap64 ((h b).Latency * (h b).Latency)

/-- The `switch` of `pickNext`: the backend the mode selects (nil when it
selects none), the number of draws made and the cursor afterwards. -/
def Balancer.selectByMode (rnd : RandSrc) (w : World) (b : Balancer) :
    Panics (Option Ptr × Nat × Int) :=
  match b.mode with
  | .ModeLeastConn =>
    some (pool.MinUp w.heap b.selector (fun a => (w.heap a).Connections), w.draws, b.cursor)
  | .ModeFirstUp =>
    some (pool.FirstUp w.heap b.selector, w.draws, b.cursor)
  | .ModeMinLatency =>
    some (pool.MinUp w.heap b.selector (fun a => (w.heap a).Latency), w.draws, b.cursor)
  | .ModeRandom =>
    match pool.Random rnd w.draws (pool.Up w.heap b.selector) with
    | some (bi, k) => some (bi, k, b.cursor)
    | none => none
  | .ModeWeightedLatency =>
    match pool.WeightedRandom rnd w.draws (pool.Up w.heap b.selector)
        (latencyWeight w.heap) with
    | some (bi, k) => some (bi, k, b.cursor)
    | none => none
  | .ModeRoundRobin =>
    let next := wrap32 (b.cursor + 1)
    some (pool.At (pool.Up w.heap b.selector) next, w.draws, next)

/-- The fallback of `pickNext`: a nil selection is replaced by
`selector.Random()`. -/
def Balancer.fallback (rnd : RandSrc) (b : Balancer) (bi : Option Ptr) (k : Nat) :
    Panics (Option Ptr × Nat) :=
  match bi with
  | some a => some (some a, k)
  | none => pool.Random rnd k b.selector

/-- The method `pickNext`: the switch, the fallback, the type assertion (which
panics on nil) and the increment of the connection gauge of the chosen
backend. The result is the chosen backend with the world and the balancer
afterwards. -/
def Balancer.pickNext (rnd : RandSrc) (w : World) (b : Balancer) :
    Panics (Ptr × World × Balancer) :=
  match Balancer.selectByMode rnd w b with
  | none => none
  | some (bi, k, c) =>
    match Balancer.fallback rnd b bi k with
    | none => none
    | some (none, _) => none
    | some (some a, k1) =>
      some (a,
        { heap := Function.update w.heap a ((w.heap a).incConnections 1), draws := k1 },
        { b with cursor := c })

/-- A pool in which every backend is down. -/
def AllDown (h : Heap) (p : pool) : Prop := ∀ a ∈ p, (h a).Up = false

/-- A pool in which at least one backend is up. -/
def SomeUp (h : Heap) (p : pool) : Prop := ∃ a ∈ p, (h a).Up = true

/-! ## Fixtures of the test suite -/

/-- The helper `mockOpts` of balancer_test.go. -/
def mockOpts (addr : String) : Options :=
  { Addr := addr, CheckInterval := 0, Rise := 0, Fall := 0 }

/-- The four backends of the `BeforeEach` block of balancer_test.go, stored at
the addresses 0 to 3: host-1 is down, the other three are up, with 0, 10, 8
and 14 connections and latencies of 1, 2, 3 and 1 ms. -/
def testHeap : Heap := fun a =>
  match a with
  | 0 => { opt := mockOpts "host-1:4150", up := 0, successes := 0, failures := 0,
           connections := 0, latency := millisecond }
  | 1 => { opt := mockOpts "host-2:4150", up := 1, successes := 0, failures := 0,
           connections := 10, latency := 2 * millisecond }
  | 2 => { opt := mockOpts "host-3:4150", up := 1, successes := 0, failures := 0,
           connections := 8, latency := 3 * millisecond }
  | _ => { opt := mockOpts "host-4:4150", up := 1, successes := 0, failures := 0,
           connections := 14, latency := millisecond }

/-- The selector of the test suite: the four backends in order. -/
def testPool : pool := [0, 1, 2, 3]

/-- The backends of the test suite after the fallback test has marked the
three that were up as down. -/
def testHeapAllDown : Heap := fun a => { testHeap a with up := 0 }

/-- The balancer of the test suite in a given mode, cursor at zero. -/
def testBalancer (m : BalanceMode) : Balancer :=
  { selector := testPool, mode := m, cursor := 0 }

/-- A random source all of whose draws are zero. -/
def zeroSrc : RandSrc := fun _ _ => 0

/-- The backends returned by `n` consecutive calls of `pickNext`, first call
first, with the world and the balancer after the last call; `none` when a call
panics. -/
def pickTimes (rnd : RandSrc) : Nat → World → Balancer → Panics (List Ptr × World × Balancer)
  | 0, w, b => some ([], w, b)
  | n + 1, w, b =>
    match Balancer.pickNext rnd w b with
    | none => none
    | some (a, w1, b1) =>
      match pickTimes rnd n w1 b1 with
      | none => none
      | some (picked, w2, b2) => some (a :: picked, w2, b2)

/-- Two backends at the addresses 0 and 1: the first is down, the second is up
with the metric `m` as both its connection gauge and its latency. -/
def saturatedHeap (m : Int) : Heap := fun a =>
  match a with
  | 0 => { opt := mockOpts "host-1:4150", up := 0, successes := 0, failures := 0,
           connections := 0, latency := millisecond }
  | _ => { opt := mockOpts "host-2:4150", up := 1, successes := 0, failures := 0,
           connections := m, latency := m }

/-! ## Closing the balancer -/

/-- The loop of `Balancer.Close`: each backend is closed in turn and a non-nil
error replaces the error kept so far. `close` gives the error returned by the
`Close` of each backend (`none` for nil); the first component of the state
lists the backends closed so far, in the order of the calls. -/
def Balancer.closeLoop (close : Ptr → Option String) :
    List Ptr → List Ptr × Option String → List Ptr × Option String
  | [], acc => acc
  | x :: rest, acc =>
    Balancer.closeLoop close rest
      (acc.1 ++ [x],
        match close x with
        | some e => some e
        | none => acc.2)

/-- The method `Balancer.Close`: the loop over the selector, starting from a
nil error. The result is the list of `Close` calls made and the error
returned. -/
def Balancer.Close (close : Ptr → Option String) (b : Balancer) : List Ptr × Option String :=
  Balancer.closeLoop close b.selector ([], none)

/-! ## Counting draws of the weighted selection -/

/-- The transformed weights `min + max - w` that `pool.WeightedRandom` computes
for a pool. -/
def pool.transformedWeights (p : pool) (weight : Ptr → Int) : List Int :=
  pool.transformWeights (pool.weightBounds (p.map weight) (maxInt64, 0)).1
    (pool.weightBounds (p.map weight) (maxInt64, 0)).2 (p.map weight)

/-- The sum that `pool.WeightedRandom` passes to `rand.Int63n`. -/
def pool.weightSum (p : pool) (weight : Ptr → Int) : Int :=
  pool.sumWeights (pool.transformedWeights p weight) 0

/-- The backend `pool.WeightedRandom` returns when `rand.Int63n` yields `mark`;
the outer `none` is the panic. -/
def pool.weightedPick (p : pool) (weight : Ptr → Int) (mark : Int) : Panics (Option Ptr) :=
  (pool.WeightedRandom (fun _ _ => mark) 0 p weight).map (fun r => r.1)

/-- The number of values of the draw in `[0, sum)` for which
`pool.WeightedRandom` returns the backend `a`. -/
def pool.drawCount (p : pool) (weight : Ptr → Int) (a : Ptr) : Nat :=
  ((List.range (pool.weightSum p weight).toNat).filter
    (fun m => decide (pool.weightedPick p weight (m : Int) = some (some a)))).length

/-- Four backends fresh from the struct literal of `newNsqBackend`: up, with
the latency of one minute that no successful probe has replaced yet. -/
def freshHeap : Heap := fun _ => initialBackend (mockOpts "127.0.0.1:4150")

/-- The index that `pool.At` computes for a pool of length `n`: the truncated
remainder of the position, multiplied by `-1` when negative. -/
def pool.atIndex (n : Int) (pos : Int) : Int :=
  if Int.tmod pos n < 0 then wrap64 (Int.tmod pos n * (-1)) else Int.tmod pos n

/-- The invariant of the two counters: at most one of them is nonzero and each
lies between zero and its threshold. -/
def CounterInv (b : nsqBackend) : Prop :=
  (b.successes = 0 ∨ b.failures = 0) ∧
  0 ≤ b.successes ∧ b.successes ≤ b.opt.getRise ∧
  0 ≤ b.failures ∧ b.failures ≤ b.opt.getFall


/-! ## Configuration -/

/-- C10: `getCheckInterval` returns one second for a zero interval, the floor of
100 ms for a non-zero interval below the floor (negative ones included) and the
interval itself otherwise; the result is never below 100 ms. -/
theorem getCheckInterval_normalised (o : Options) :
    (o.CheckInterval = 0 → o.getCheckInterval = 1000000000) ∧
    (o.CheckInterval ≠ 0 ∧ o.CheckInterval < 100000000 →
      o.getCheckInterval = 100000000) ∧
    (o.CheckInterval ≠ 0 ∧ ¬ o.CheckInterval < 100000000 →
      o.getCheckInterval = o.CheckInterval) ∧
    100000000 ≤ o.getCheckInterval ∧
    second = 1000000000 ∧ minCheckInterval = 100000000 := by
  have hs : second = 1000000000 := rfl
  have hm : minCheckInterval = 100000000 := by
    simp [minCheckInterval, millisecond]
  simp only [Options.getCheckInterval, hs, hm]
  refine ⟨?_, ?_, ?_, ?_, trivial, trivial⟩
  · intro h; simp [h]
  · rintro ⟨h0, h1⟩; simp [h0, h1]
  · rintro ⟨h0, h1⟩; simp [h0, h1]
  · split_ifs <;> omega


/-! ## Machine integers: basic facts -/

theorem wrap32_of_range (x : Int) (h1 : -2147483648 ≤ x) (h2 : x ≤ 2147483647) :
    wrap32 x = x := by
  unfold wrap32; omega

theorem wrap64_of_range (x : Int) (h1 : -9223372036854775808 ≤ x)
    (h2 : x ≤ 9223372036854775807) : wrap64 x = x := by
  unfold wrap64; omega

theorem wrap32_range (x : Int) : -2147483648 ≤ wrap32 x ∧ wrap32 x ≤ 2147483647 := by
  unfold wrap32; omega

theorem wrap64_range (x : Int) :
    -9223372036854775808 ≤ wrap64 x ∧ wrap64 x ≤ 9223372036854775807 := by
  unfold wrap64; omega

/-! ## The health state machine -/

theorem getRise_pos (o : Options) : 1 ≤ o.getRise := by
  unfold Options.getRise; split_ifs <;> omega

theorem getFall_pos (o : Options) : 1 ≤ o.getFall := by
  unfold Options.getFall; split_ifs <;> omega

theorem updateStatus_opt (b : nsqBackend) (s : Bool) : (b.updateStatus s).opt = b.opt := by
  unfold nsqBackend.updateStatus
  cases s <;> simp <;> split_ifs <;> rfl


theorem failTimes_add (m j : Nat) (b : nsqBackend) :
    failTimes (m + j) b = failTimes j (failTimes m b) := by
  induction m generalizing b with
  | zero => simp [failTimes]
  | succ m ih =>
    rw [Nat.add_right_comm]
    simp only [failTimes]
    exact ih _

theorem succeedTimes_add (m j : Nat) (b : nsqBackend) :
    succeedTimes (m + j) b = succeedTimes j (succeedTimes m b) := by
  induction m generalizing b with
  | zero => simp [succeedTimes]
  | succ m ih =>
    rw [Nat.add_right_comm]
    simp only [succeedTimes]
    exact ih _

theorem failTimes_opt (k : Nat) (b : nsqBackend) : (failTimes k b).opt = b.opt := by
  induction k generalizing b with
  | zero => rfl
  | succ k ih => simp only [failTimes]; rw [ih, updateStatus_opt]

theorem succeedTimes_opt (k : Nat) (b : nsqBackend) : (succeedTimes k b).opt = b.opt := by
  induction k generalizing b with
  | zero => rfl
  | succ k ih => simp only [succeedTimes]; rw [ih, updateStatus_opt]

theorem runUpdates_opt (b : nsqBackend) (t : List Bool) : (runUpdates b t).opt = b.opt := by
  induction t generalizing b with
  | nil => rfl
  | cons s t ih => simp only [runUpdates]; rw [ih, updateStatus_opt]

/-- One failure on a backend whose flag is 1 and whose failure counter is
below both the threshold and the top of `int32`. -/
theorem updateStatus_false_fields (b : nsqBackend) (hu : b.up = 1) (h0 : 0 ≤ b.failures)
    (h1 : b.failures < b.opt.getFall) (h2 : b.failures + 1 ≤ 2147483647) :
    (b.updateStatus false).failures = b.failures + 1 ∧
    (b.updateStatus false).up = (if b.failures + 1 = b.opt.getFall then 0 else 1) := by
  unfold nsqBackend.updateStatus
  have hw : wrap32 (b.failures + 1) = b.failures + 1 := wrap32_of_range _ (by omega) h2
  simp only [Bool.false_eq_true, if_false, hw]
  rw [if_neg (by omega)]
  by_cases he : b.failures + 1 = b.opt.getFall
  · simp [he, hu]
  · simp [he, hu]

/-- One success on a backend whose flag is 0 and whose success counter is
below both the threshold and the top of `int32`. -/
theorem updateStatus_true_fields (b : nsqBackend) (hu : b.up = 0) (h0 : 0 ≤ b.successes)
    (h1 : b.successes < b.opt.getRise) (h2 : b.successes + 1 ≤ 2147483647) :
    (b.updateStatus true).successes = b.successes + 1 ∧
    (b.updateStatus true).up = (if b.successes + 1 = b.opt.getRise then 1 else 0) := by
  unfold nsqBackend.updateStatus
  have hw : wrap32 (b.successes + 1) = b.successes + 1 := wrap32_of_range _ (by omega) h2
  simp only [if_true, hw]
  rw [if_neg (by omega)]
  by_cases he : b.successes + 1 = b.opt.getRise
  · simp [he, hu]
  · simp [he, hu]

/-- Failures never raise the flag. -/
theorem updateStatus_false_up (b : nsqBackend) :
    (b.updateStatus false).up = b.up ∨ (b.updateStatus false).up = 0 := by
  unfold nsqBackend.updateStatus
  simp only [Bool.false_eq_true, if_false]
  split_ifs <;> simp

/-- Successes never lower the flag. -/
theorem updateStatus_true_up (b : nsqBackend) :
    (b.updateStatus true).up = b.up ∨ (b.updateStatus true).up = 1 := by
  unfold nsqBackend.updateStatus
  simp only [if_true]
  split_ifs <;> simp

theorem failTimes_down (k : Nat) (b : nsqBackend) (h : b.up = 0) : (failTimes k b).up = 0 := by
  induction k generalizing b with
  | zero => exact h
  | succ k ih =>
    simp only [failTimes]
    apply ih
    rcases updateStatus_false_up b with h1 | h1
    · rw [h1, h]
    · exact h1

/-- Counting failures below the threshold: the flag stays 1 and the counter
grows by one per call. -/
theorem failTimes_counting (k : Nat) (b : nsqBackend) (hu : b.up = 1) (h0 : 0 ≤ b.failures)
    (h1 : b.failures + k < b.opt.getFall) (h2 : b.failures + k ≤ 2147483647) :
    (failTimes k b).up = 1 ∧ (failTimes k b).failures = b.failures + k := by
  induction k generalizing b with
  | zero => simp [failTimes, hu]
  | succ k ih =>
    simp only [failTimes]
    have hf := updateStatus_false_fields b hu h0 (by push_cast at h1; omega)
      (by push_cast at h2; omega)
    have hne : ¬ b.failures + 1 = b.opt.getFall := by push_cast at h1; omega
    rw [if_neg hne] at hf
    have := ih (b.updateStatus false) hf.2 (by omega)
      (by rw [updateStatus_opt, hf.1]; push_cast at h1; omega)
      (by rw [hf.1]; push_cast at h2; omega)
    refine ⟨this.1, ?_⟩
    rw [this.2, hf.1]
    push_cast
    omega

/-- Counting successes below the threshold: the flag stays 0 and the counter
grows by one per call. -/
theorem succeedTimes_counting (k : Nat) (b : nsqBackend) (hu : b.up = 0)
    (h0 : 0 ≤ b.successes) (h1 : b.successes + k < b.opt.getRise)
    (h2 : b.successes + k ≤ 2147483647) :
    (succeedTimes k b).up = 0 ∧ (succeedTimes k b).successes = b.successes + k := by
  induction k generalizing b with
  | zero => simp [succeedTimes, hu]
  | succ k ih =>
    simp only [succeedTimes]
    have hf := updateStatus_true_fields b hu h0 (by push_cast at h1; omega)
      (by push_cast at h2; omega)
    have hne : ¬ b.successes + 1 = b.opt.getRise := by push_cast at h1; omega
    rw [if_neg hne] at hf
    have := ih (b.updateStatus true) hf.2 (by omega)
      (by rw [updateStatus_opt, hf.1]; push_cast at h1; omega)
      (by rw [hf.1]; push_cast at h2; omega)
    refine ⟨this.1, ?_⟩
    rw [this.2, hf.1]
    push_cast
    omega


/-- The flag only ever holds 0 or 1 once it does. -/
theorem updateStatus_flag (b : nsqBackend) (s : Bool) (h : b.up = 0 ∨ b.up = 1) :
    (b.updateStatus s).up = 0 ∨ (b.updateStatus s).up = 1 := by
  cases s
  · rcases updateStatus_false_up b with h1 | h1
    · rw [h1]; exact h
    · exact Or.inl h1
  · rcases updateStatus_true_up b with h1 | h1
    · rw [h1]; exact h
    · exact Or.inr h1

theorem runUpdates_flag (b : nsqBackend) (t : List Bool) (h : b.up = 0 ∨ b.up = 1) :
    (runUpdates b t).up = 0 ∨ (runUpdates b t).up = 1 := by
  induction t generalizing b with
  | nil => exact h
  | cons s t ih => exact ih _ (updateStatus_flag b s h)

theorem reachable_flag (opt : Options) (b : nsqBackend) (h : Reachable opt b) :
    b.up = 0 ∨ b.up = 1 := by
  obtain ⟨t, rfl⟩ := h
  exact runUpdates_flag _ t (Or.inr rfl)

theorem reachable_opt (opt : Options) (b : nsqBackend) (h : Reachable opt b) :
    b.opt = opt := by
  obtain ⟨t, rfl⟩ := h
  rw [runUpdates_opt]; rfl

/-- While the threshold fits in `int32`, a backend whose flag is 1 has a
failure counter in `[0, fall)`. -/
theorem updateStatus_failInv (b : nsqBackend) (s : Bool)
    (hF : b.opt.getFall ≤ 2147483647)
    (h : b.up = 1 → 0 ≤ b.failures ∧ b.failures < b.opt.getFall) :
    (b.updateStatus s).up = 1 →
      0 ≤ (b.updateStatus s).failures ∧
        (b.updateStatus s).failures < (b.updateStatus s).opt.getFall := by
  have hpos := getFall_pos b.opt
  rw [updateStatus_opt]
  cases s
  · intro hu
    by_cases hb : b.up = 1
    · obtain ⟨h0, h1⟩ := h hb
      have hf := updateStatus_false_fields b hb h0 h1 (by omega)
      rw [hf.2] at hu
      rw [hf.1]
      split_ifs at hu with he
      · omega
      · omega
    · exfalso
      unfold nsqBackend.updateStatus at hu
      simp only [Bool.false_eq_true, if_false] at hu
      split_ifs at hu <;> simp at hu <;> omega
  · intro _
    unfold nsqBackend.updateStatus
    simp only [if_true]
    split_ifs <;> simp <;> omega

theorem runUpdates_failInv (b : nsqBackend) (t : List Bool)
    (hF : b.opt.getFall ≤ 2147483647)
    (h : b.up = 1 → 0 ≤ b.failures ∧ b.failures < b.opt.getFall) :
    (runUpdates b t).up = 1 →
      0 ≤ (runUpdates b t).failures ∧ (runUpdates b t).failures < b.opt.getFall := by
  induction t generalizing b with
  | nil => exact h
  | cons s t ih =>
    simp only [runUpdates]
    have := ih (b.updateStatus s) (by rw [updateStatus_opt]; exact hF)
      (updateStatus_failInv b s hF h)
    rw [updateStatus_opt] at this
    exact this

/-- Fall hysteresis while the threshold fits in `int32`: from every reachable
state `getFall()` consecutive failures bring the backend down, and further
failures keep it down. -/
theorem fall_hysteresis_int32 (opt : Options) (hF : opt.getFall ≤ 2147483647)
    (b : nsqBackend) (hb : Reachable opt b) (j : Nat) :
    (failTimes (opt.getFall.toNat + j) b).Up = false := by
  have hpos := getFall_pos opt
  have hopt := reachable_opt opt b hb
  have hflag := reachable_flag opt b hb
  have hinv : b.up = 1 → 0 ≤ b.failures ∧ b.failures < opt.getFall := by
    obtain ⟨t, rfl⟩ := hb
    exact runUpdates_failInv _ t hF (by intro _; exact ⟨le_refl _, hpos⟩)
  suffices hs : (failTimes (opt.getFall.toNat + j) b).up = 0 by
    simp [nsqBackend.Up, hs]
  rcases hflag with h0 | h1
  · exact failTimes_down _ b h0
  · obtain ⟨hf0, hf1⟩ := hinv h1
    -- the first `fall - failures` calls reach the threshold
    obtain ⟨m, hm⟩ : ∃ m : Nat, (m : Int) + 1 = opt.getFall - b.failures :=
      ⟨(opt.getFall - b.failures - 1).toNat, by omega⟩
    have hsplit : opt.getFall.toNat + j = m + (1 + (b.failures.toNat + j)) := by omega
    rw [hsplit, failTimes_add, failTimes_add]
    apply failTimes_down
    have hc := failTimes_counting m b h1 hf0 (by rw [hopt]; omega) (by omega)
    have hstep := updateStatus_false_fields (failTimes m b) hc.1 (by rw [hc.2]; omega)
      (by rw [failTimes_opt, hopt, hc.2]; omega) (by rw [hc.2]; omega)
    simp only [failTimes]
    rw [hstep.2, failTimes_opt, hopt, hc.2, if_pos (by omega)]

/-- A failure threshold beyond `int32` is never met: the counter is an `int32`,
so the flag is left as it is by every failure. -/
theorem updateStatus_false_up_of_large (b : nsqBackend) (hF : 2147483647 < b.opt.getFall) :
    (b.updateStatus false).up = b.up := by
  unfold nsqBackend.updateStatus
  have hr := wrap32_range (b.failures + 1)
  simp only [Bool.false_eq_true, if_false]
  rw [if_neg (by omega), if_neg (by omega)]

/-- A success threshold beyond `int32` is never met. -/
theorem updateStatus_true_up_of_large (b : nsqBackend) (hR : 2147483647 < b.opt.getRise) :
    (b.updateStatus true).up = b.up := by
  unfold nsqBackend.updateStatus
  have hr := wrap32_range (b.successes + 1)
  simp only [if_true]
  rw [if_neg (by omega), if_neg (by omega)]

theorem failTimes_up_of_large (k : Nat) (b : nsqBackend) (hF : 2147483647 < b.opt.getFall) :
    (failTimes k b).up = b.up := by
  induction k generalizing b with
  | zero => rfl
  | succ k ih =>
    simp only [failTimes]
    rw [ih _ (by rw [updateStatus_opt]; exact hF), updateStatus_false_up_of_large b hF]

theorem succeedTimes_up_of_large (k : Nat) (b : nsqBackend)
    (hR : 2147483647 < b.opt.getRise) : (succeedTimes k b).up = b.up := by
  induction k generalizing b with
  | zero => rfl
  | succ k ih =>
    simp only [succeedTimes]
    rw [ih _ (by rw [updateStatus_opt]; exact hR), updateStatus_true_up_of_large b hR]

/-- C1, at the failing input `Options{Fall: 2147483648}`: `getFall()` is
`2147483648`, after `2147483648` consecutive `updateStatus(false)` calls on the
freshly built backend `Up()` is still true, and it is true after any number of
such calls. -/
theorem fall_beyond_int32_stays_up :
    (Options.mk "127.0.0.1:4150" 0 0 2147483648).getFall = 2147483648 ∧
    (failTimes 2147483648
      (initialBackend (Options.mk "127.0.0.1:4150" 0 0 2147483648))).Up = true ∧
    ∀ k : Nat, (failTimes k
      (initialBackend (Options.mk "127.0.0.1:4150" 0 0 2147483648))).Up = true := by
  have hall : ∀ k : Nat, (failTimes k
      (initialBackend (Options.mk "127.0.0.1:4150" 0 0 2147483648))).Up = true := by
    intro k
    have h := failTimes_up_of_large k
      (initialBackend (Options.mk "127.0.0.1:4150" 0 0 2147483648)) (by decide)
    unfold nsqBackend.Up
    rw [h]
    decide
  exact ⟨by decide, hall 2147483648, hall⟩

/-- Rise hysteresis while the threshold fits in `int32`: a reachable backend
that is down with its success counter at 0 is still down after each of the
first `getRise() - 1` consecutive successes and up after the next one. -/
theorem rise_hysteresis_int32 (opt : Options) (hR : opt.getRise ≤ 2147483647)
    (b : nsqBackend) (hb : Reachable opt b) (hd : b.Up = false) (hs : b.successes = 0) :
    (∀ k : Nat, (k : Int) < opt.getRise → (succeedTimes k b).Up = false) ∧
    (succeedTimes opt.getRise.toNat b).Up = true := by
  have hpos := getRise_pos opt
  have hopt := reachable_opt opt b hb
  have hu : b.up = 0 := by
    rcases reachable_flag opt b hb with h | h
    · exact h
    · simp [nsqBackend.Up, h] at hd
  constructor
  · intro k hk
    have hc := succeedTimes_counting k b hu (by omega) (by rw [hopt]; omega) (by omega)
    simp [nsqBackend.Up, hc.1]
  · obtain ⟨m, hm⟩ : ∃ m : Nat, (m : Int) + 1 = opt.getRise :=
      ⟨(opt.getRise - 1).toNat, by omega⟩
    have hsplit : opt.getRise.toNat = m + 1 := by omega
    rw [hsplit, succeedTimes_add]
    have hc := succeedTimes_counting m b hu (by omega) (by rw [hopt]; omega) (by omega)
    have hstep := updateStatus_true_fields (succeedTimes m b) hc.1 (by rw [hc.2]; omega)
      (by rw [succeedTimes_opt, hopt, hc.2]; omega) (by rw [hc.2]; omega)
    simp only [succeedTimes]
    unfold nsqBackend.Up
    rw [hstep.2, succeedTimes_opt, hopt, hc.2, if_pos (by omega)]
    decide

/-- C2, at the failing input `Options{Rise: 2147483648}`: the backend is down
with its success counter at 0 after one failure, `getRise()` is `2147483648`,
after `2147483648` consecutive `updateStatus(true)` calls `Up()` is still false,
and it is false after any number of such calls. -/
theorem rise_beyond_int32_stays_down :
    (Options.mk "127.0.0.1:4150" 0 2147483648 0).getRise = 2147483648 ∧
    ((initialBackend (Options.mk "127.0.0.1:4150" 0 2147483648 0)).updateStatus false).Up
      = false ∧
    ((initialBackend (Options.mk "127.0.0.1:4150" 0 2147483648 0)).updateStatus
      false).successes = 0 ∧
    (succeedTimes 2147483648
      ((initialBackend (Options.mk "127.0.0.1:4150" 0 2147483648 0)).updateStatus
        false)).Up = false ∧
    ∀ k : Nat, (succeedTimes k
      ((initialBackend (Options.mk "127.0.0.1:4150" 0 2147483648 0)).updateStatus
        false)).Up = false := by
  have hall : ∀ k : Nat, (succeedTimes k
      ((initialBackend (Options.mk "127.0.0.1:4150" 0 2147483648 0)).updateStatus
        false)).Up = false := by
    intro k
    have h := succeedTimes_up_of_large k
      ((initialBackend (Options.mk "127.0.0.1:4150" 0 2147483648 0)).updateStatus false)
      (by decide)
    unfold nsqBackend.Up
    rw [h]
    decide
  exact ⟨by decide, by decide, by decide, hall 2147483648, hall⟩

/-- The scenario of the backend test (`Rise: 2`, `Fall` unset): up at first,
down after one failure, still down after 100 more failures and after one
success, up after the second consecutive success. -/
theorem updateStatus_test_scenario :
    (initialBackend (Options.mk "127.0.0.1:4150" 0 2 0)).Up = true ∧
    (failTimes 1 (initialBackend (Options.mk "127.0.0.1:4150" 0 2 0))).Up = false ∧
    (failTimes 101 (initialBackend (Options.mk "127.0.0.1:4150" 0 2 0))).Up = false ∧
    (succeedTimes 1
      (failTimes 101 (initialBackend (Options.mk "127.0.0.1:4150" 0 2 0)))).Up = false ∧
    (succeedTimes 2
      (failTimes 101 (initialBackend (Options.mk "127.0.0.1:4150" 0 2 0)))).Up = true := by
  decide!

/-! ## Construction -/

/-- C9, counterexample: with the configuration of the backend test (`Rise: 2`,
`Fall` unset) and a construction probe that fails, the backend returned by
`newNsqBackend` reports `Up() == false` and `Down() == true`. -/
theorem newNsqBackend_failed_probe_is_down :
    (newNsqBackend (Options.mk "127.0.0.1:4150" 0 2 0) none).Up = false ∧
    (newNsqBackend (Options.mk "127.0.0.1:4150" 0 2 0) none).Down = true := by
  decide

/-- C9, amended: the backend returned by `newNsqBackend` reports `Up() == true`
and `Down() == false` whenever the construction probe succeeds, and also when
it fails under a fall threshold of at least 2; when the probe fails and
`getFall()` is 1 (every `Fall` below 2, the default included) it reports
`Up() == false` and `Down() == true`. -/
theorem newNsqBackend_initial_health (opt : Options) :
    (∀ d : Int, (newNsqBackend opt (some d)).Up = true ∧
      (newNsqBackend opt (some d)).Down = false) ∧
    (2 ≤ opt.getFall → (newNsqBackend opt none).Up = true ∧
      (newNsqBackend opt none).Down = false) ∧
    (opt.getFall = 1 → (newNsqBackend opt none).Up = false ∧
      (newNsqBackend opt none).Down = true) ∧
    (opt.getFall = 1 ↔ opt.Fall < 2) := by
  have hr := getRise_pos opt
  have hf := getFall_pos opt
  refine ⟨?_, ?_, ?_, ?_⟩
  · intro d
    have hu : (newNsqBackend opt (some d)).up = 1 := by
      simp only [newNsqBackend, nsqBackend.startLoop, nsqBackend.ping, initialBackend,
        nsqBackend.updateStatus, if_true]
      have hw : wrap32 (0 + 1) = 1 := by decide
      rw [hw]
      split_ifs <;> rfl
    simp [nsqBackend.Down, nsqBackend.Up, hu]
  · intro h2
    have hu : (newNsqBackend opt none).up = 1 := by
      simp only [newNsqBackend, nsqBackend.startLoop, nsqBackend.ping, initialBackend,
        nsqBackend.updateStatus, Bool.false_eq_true, if_false]
      have hw : wrap32 (0 + 1) = 1 := by decide
      rw [hw, if_neg (by omega), if_neg (by omega)]
    simp [nsqBackend.Down, nsqBackend.Up, hu]
  · intro h1
    have hu : (newNsqBackend opt none).up = 0 := by
      simp only [newNsqBackend, nsqBackend.startLoop, nsqBackend.ping, initialBackend,
        nsqBackend.updateStatus, Bool.false_eq_true, if_false]
      have hw : wrap32 (0 + 1) = 1 := by decide
      rw [hw, if_neg (by omega), if_pos (by omega)]
      simp
    simp [nsqBackend.Down, nsqBackend.Up, hu]
  · unfold Options.getFall
    split_ifs <;> omega

/-! ## The pool combinators -/

theorem mem_Up (h : Heap) (p : pool) (a : Ptr) :
    a ∈ pool.Up h p ↔ a ∈ p ∧ (h a).Up = true := by
  simp [pool.Up, pool.all]

theorem Up_eq_nil_of_allDown (h : Heap) (p : pool) (hd : AllDown h p) : pool.Up h p = [] := by
  simp only [pool.Up, pool.all, List.filter_eq_nil_iff]
  intro a ha
  simp [hd a ha]

theorem Up_ne_nil_of_someUp (h : Heap) (p : pool) (hu : SomeUp h p) : pool.Up h p ≠ [] := by
  obtain ⟨a, ha, hau⟩ := hu
  intro hnil
  have : a ∈ pool.Up h p := (mem_Up h p a).2 ⟨ha, hau⟩
  rw [hnil] at this
  simp at this

/-- The up-subsequence depends on the flags only. -/
theorem Up_congr (h1 h2 : Heap) (p : pool) (hc : ∀ a ∈ p, (h2 a).Up = (h1 a).Up) :
    pool.Up h2 p = pool.Up h1 p := by
  simp only [pool.Up, pool.all]
  apply List.filter_congr
  intro a ha
  exact hc a ha

theorem FirstUp_congr (h1 h2 : Heap) (p : pool) (hc : ∀ a ∈ p, (h2 a).Up = (h1 a).Up) :
    pool.FirstUp h2 p = pool.FirstUp h1 p := by
  induction p with
  | nil => rfl
  | cons x xs ih =>
    have hx := hc x (List.mem_cons_self x xs)
    have ih1 := ih (fun a ha => hc a (List.mem_cons_of_mem x ha))
    simp only [pool.FirstUp, pool.first, List.find?_cons] at ih1 ⊢
    rw [hx]
    cases (h1 x).Up
    · exact ih1
    · rfl

theorem incConnections_Up (b : nsqBackend) (n : Int) : (b.incConnections n).Up = b.Up := rfl

/-- Incrementing one connection gauge leaves every flag as it is. -/
theorem Up_update_inc (h : Heap) (a : Ptr) (n : Int) (c : Ptr) :
    (Function.update h a ((h a).incConnections n) c).Up = (h c).Up := by
  by_cases hc : c = a
  · subst hc; simp [incConnections_Up]
  · simp [Function.update_noteq hc]

/-- The first up backend is the head of the up-subsequence. -/
theorem FirstUp_eq_head (h : Heap) (p : pool) :
    pool.FirstUp h p = (pool.Up h p).head? := by
  induction p with
  | nil => rfl
  | cons x xs ih =>
    simp only [pool.FirstUp, pool.first, pool.Up, pool.all, List.find?_cons,
      List.filter_cons] at ih ⊢
    cases (h x).Up
    · simp only [Bool.false_eq_true, if_false]; exact ih
    · simp

theorem FirstUp_eq_none_iff (h : Heap) (p : pool) :
    pool.FirstUp h p = none ↔ AllDown h p := by
  simp [pool.FirstUp, pool.first, AllDown]

/-- The loop of `MinUp` over a stretch in which nobody is up changes nothing. -/
theorem minUpLoop_allDown (h : Heap) (f : Ptr → Int) (p : List Ptr) (n : Nat)
    (acc : Int × Int) (hd : AllDown h p) : pool.minUpLoop h f p n acc = acc := by
  induction p generalizing n with
  | nil => rfl
  | cons x xs ih =>
    simp only [pool.minUpLoop]
    have hx : (h x).Up = false := hd x (List.mem_cons_self x xs)
    rw [hx]
    simpa using ih (n + 1) (fun a ha => hd a (List.mem_cons_of_mem x ha))

theorem MinUp_allDown (h : Heap) (f : Ptr → Int) (p : pool) (hd : AllDown h p) :
    pool.MinUp h p f = none := by
  simp [pool.MinUp, minUpLoop_allDown h f p 0 _ hd]

/-- A draw within the bounds of a non-empty pool returns the element at the
drawn index and consumes one draw. -/
theorem Random_of_valid (rnd : RandSrc) (hv : rnd.Valid) (k : Nat) (p : pool) (hne : p ≠ []) :
    ∃ (r : Nat) (hr : r < p.length),
      rnd k (p.length : Int) = (r : Int) ∧ pool.Random rnd k p = some (some p[r], k + 1) := by
  have hlen : 0 < p.length := List.length_pos.mpr hne
  obtain ⟨h0, h1⟩ := hv k (p.length : Int) (by exact_mod_cast hlen)
  refine ⟨(rnd k (p.length : Int)).toNat, by omega, by omega, ?_⟩
  have hr : (rnd k (p.length : Int)).toNat < p.length := by omega
  simp only [pool.Random, if_pos hlen, if_neg (not_lt.mpr h0),
    List.getElem?_eq_getElem hr]

theorem Random_nil (rnd : RandSrc) (k : Nat) : pool.Random rnd k [] = some (none, k) := by
  simp [pool.Random]

/-! ## `MinUp` -/

/-- One step of the loop of `MinUp`: the state after looking at backend `x` at
index `n`. -/
theorem minUpLoop_cons (h : Heap) (f : Ptr → Int) (x : Ptr) (xs : List Ptr) (n : Nat)
    (acc : Int × Int) :
    pool.minUpLoop h f (x :: xs) n acc =
      pool.minUpLoop h f xs (n + 1)
        (if (h x).Up then (if f x < acc.2 then ((n : Int), f x) else acc) else acc) := rfl

/-- What the loop of `MinUp` computes from index `n` on. The minimum never
grows, it bounds the metric of every up backend looked at, and either the state
is untouched or it holds the index of an up backend with exactly that metric,
below the earlier minimum and strictly below every up backend before it. -/
theorem minUpLoop_spec (h : Heap) (f : Ptr → Int) (xs : List Ptr) (n : Nat)
    (acc : Int × Int) :
    (pool.minUpLoop h f xs n acc).2 ≤ acc.2 ∧
    (∀ c ∈ xs, (h c).Up = true → (pool.minUpLoop h f xs n acc).2 ≤ f c) ∧
    (pool.minUpLoop h f xs n acc = acc ∨
      ∃ (i : Nat) (hi : i < xs.length),
        (pool.minUpLoop h f xs n acc).1 = ((n + i : Nat) : Int) ∧
        (h xs[i]).Up = true ∧
        f xs[i] = (pool.minUpLoop h f xs n acc).2 ∧
        (pool.minUpLoop h f xs n acc).2 < acc.2 ∧
        ∀ (j : Nat) (hj : j < i), (h (xs[j])).Up = true →
          (pool.minUpLoop h f xs n acc).2 < f (xs[j])) := by
  induction xs generalizing n acc with
  | nil => exact ⟨le_refl _, by simp, Or.inl rfl⟩
  | cons x xs ih =>
    rw [minUpLoop_cons]
    -- the state after the first backend
    obtain ⟨acc1, hacc1⟩ : ∃ acc1, acc1 =
        (if (h x).Up then (if f x < acc.2 then ((n : Int), f x) else acc) else acc) :=
      ⟨_, rfl⟩
    rw [← hacc1]
    have hle : acc1.2 ≤ acc.2 := by
      rw [hacc1]
      split_ifs with hu hlt
      · exact le_of_lt hlt
      · exact le_refl _
      · exact le_refl _
    have hx : (h x).Up = true → acc1.2 ≤ f x := by
      intro hu
      rw [hacc1, hu]
      simp only [if_true]
      split_ifs with hlt
      · simp
      · omega
    have hcase : acc1 = acc ∨
        ((h x).Up = true ∧ f x < acc.2 ∧ acc1 = ((n : Int), f x)) := by
      rw [hacc1]
      by_cases hu : (h x).Up = true
      · by_cases hlt : f x < acc.2
        · right; simp [hu, hlt]
        · left; simp [hlt]
      · left; simp [hu]
    obtain ⟨ih1, ih2, ih3⟩ := ih (n + 1) acc1
    refine ⟨le_trans ih1 hle, ?_, ?_⟩
    · intro c hc hu
      rcases List.mem_cons.1 hc with rfl | hc
      · exact le_trans ih1 (hx hu)
      · exact ih2 c hc hu
    · rcases ih3 with heq | ⟨i, hi, hpos, hup, hval, hlt, hbefore⟩
      · rcases hcase with hsame | ⟨hu, hlt, hnew⟩
        · left; rw [heq, hsame]
        · right
          refine ⟨0, by simp, ?_, ?_, ?_, ?_, ?_⟩
          · rw [heq, hnew]; simp
          · simpa using hu
          · rw [heq, hnew]; simp
          · rw [heq, hnew]; simpa using hlt
          · intro j hj; omega
      · right
        refine ⟨i + 1, by simp; omega, ?_, ?_, ?_, ?_, ?_⟩
        · rw [hpos]; push_cast; omega
        · simpa using hup
        · simpa using hval
        · exact lt_of_lt_of_le hlt hle
        · intro j hj hu
          cases j with
          | zero =>
            simp only [List.getElem_cons_zero] at hu ⊢
            exact lt_of_lt_of_le hlt (hx hu)
          | succ j =>
            simp only [List.getElem_cons_succ] at hu ⊢
            exact hbefore j (by omega) hu

/-- What `MinUp` returns when it returns a backend: an element of the pool that
is up and whose metric is at most that of every up backend. -/
theorem MinUp_some (h : Heap) (p : pool) (f : Ptr → Int) (a : Ptr)
    (hr : pool.MinUp h p f = some a) :
    a ∈ p ∧ (h a).Up = true ∧ ∀ c ∈ p, (h c).Up = true → f a ≤ f c := by
  obtain ⟨_, h2, h3⟩ := minUpLoop_spec h f p 0 (-1, maxInt64)
  unfold pool.MinUp at hr
  simp only at hr
  rcases h3 with heq | ⟨i, hi, hpos, hup, hval, _, _⟩
  · rw [heq] at hr
    simp at hr
  · rw [hpos] at hr
    have hnn : ¬ (((0 + i : Nat) : Int) < 0) := by omega
    rw [if_neg hnn] at hr
    have hidx : (((0 + i : Nat) : Int)).toNat = i := by omega
    rw [hidx, List.getElem?_eq_getElem hi] at hr
    have ha : p[i] = a := Option.some.inj hr
    subst ha
    refine ⟨List.getElem_mem _, hup, ?_⟩
    intro c hc hcu
    rw [hval]
    exact h2 c hc hcu

/-- The method `MinUp` returns nil exactly when no up backend has a metric
below `math.MaxInt64`. -/
theorem MinUp_eq_none_iff (h : Heap) (p : pool) (f : Ptr → Int) :
    pool.MinUp h p f = none ↔ ∀ c ∈ p, (h c).Up = true → maxInt64 ≤ f c := by
  obtain ⟨_, h2, h3⟩ := minUpLoop_spec h f p 0 (-1, maxInt64)
  constructor
  · intro hr c hc hcu
    rcases h3 with heq | ⟨i, hi, hpos, _, _, _, _⟩
    · have := h2 c hc hcu
      rw [heq] at this
      exact this
    · exfalso
      unfold pool.MinUp at hr
      simp only at hr
      rw [hpos] at hr
      have hnn : ¬ (((0 + i : Nat) : Int) < 0) := by omega
      rw [if_neg hnn] at hr
      have hidx : (((0 + i : Nat) : Int)).toNat = i := by omega
      rw [hidx, List.getElem?_eq_getElem hi] at hr
      exact Option.some_ne_none _ hr
  · intro hall
    rcases h3 with heq | ⟨i, hi, _, hup, hval, hlt, _⟩
    · unfold pool.MinUp
      simp only
      rw [heq]
      simp
    · exfalso
      have := hall p[i] (List.getElem_mem _) hup
      rw [hval] at this
      simp only at hlt
      omega

/-! ## Whatever a combinator returns is in the pool -/

theorem Random_some_mem (rnd : RandSrc) (k k1 : Nat) (p : pool) (a : Ptr)
    (h : pool.Random rnd k p = some (some a, k1)) : a ∈ p := by
  unfold pool.Random at h
  by_cases h1 : p.length > 0
  · rw [if_pos h1] at h
    simp only at h
    by_cases h2 : rnd k (p.length : Int) < 0
    · rw [if_pos h2] at h
      exact absurd h (by simp)
    · rw [if_neg h2] at h
      cases hx : p[(rnd k (p.length : Int)).toNat]? with
      | none => rw [hx] at h; exact absurd h (by simp)
      | some x =>
        rw [hx] at h
        simp only [Option.some.injEq, Prod.mk.injEq] at h
        rw [← h.1]
        exact List.getElem?_mem hx
  · rw [if_neg h1] at h
    simp at h

theorem At_some_mem (p : pool) (pos : Int) (a : Ptr) (h : pool.At p pos = some a) : a ∈ p := by
  unfold pool.At at h
  simp only at h
  split_ifs at h <;> exact List.getElem?_mem h

theorem walk_some_mem (p : List Ptr) (ws : List Int) (mark : Int) (a : Ptr)
    (h : pool.walk p ws mark = some a) : a ∈ p := by
  induction p generalizing ws mark with
  | nil => simp [pool.walk] at h
  | cons x xs ih =>
    cases ws with
    | nil => simp [pool.walk] at h
    | cons v vs =>
      simp only [pool.walk] at h
      split_ifs at h with hle
      · simp only [Option.some.injEq] at h
        rw [← h]
        exact List.mem_cons_self _ _
      · exact List.mem_cons_of_mem _ (ih _ _ h)

theorem WeightedRandom_some_mem (rnd : RandSrc) (k k1 : Nat) (p : pool) (f : Ptr → Int)
    (a : Ptr) (h : pool.WeightedRandom rnd k p f = some (some a, k1)) : a ∈ p := by
  unfold pool.WeightedRandom at h
  simp only at h
  split_ifs at h with h1 h2
  · simp at h
  · simp only [Option.some.injEq, Prod.mk.injEq] at h
    exact walk_some_mem _ _ _ _ h.1

theorem FirstUp_some (h : Heap) (p : pool) (a : Ptr) (hf : pool.FirstUp h p = some a) :
    a ∈ p ∧ (h a).Up = true := by
  simp only [pool.FirstUp, pool.first] at hf
  exact ⟨List.mem_of_find?_eq_some hf, List.find?_some (p := fun b => (h b).Up) hf⟩

/-- Whenever the switch of `pickNext` selects a backend, in whatever mode, that
backend is an element of the pool and is up. -/
theorem selectByMode_selected_up (rnd : RandSrc) (w : World) (b : Balancer) (a : Ptr)
    (k : Nat) (c : Int) (h : Balancer.selectByMode rnd w b = some (some a, k, c)) :
    a ∈ b.selector ∧ (w.heap a).Up = true := by
  unfold Balancer.selectByMode at h
  cases hm : b.mode <;> rw [hm] at h <;> simp only at h
  · simp only [Option.some.injEq, Prod.mk.injEq] at h
    have := MinUp_some _ _ _ _ h.1
    exact ⟨this.1, this.2.1⟩
  · simp only [Option.some.injEq, Prod.mk.injEq] at h
    exact FirstUp_some _ _ _ h.1
  · simp only [Option.some.injEq, Prod.mk.injEq] at h
    have := MinUp_some _ _ _ _ h.1
    exact ⟨this.1, this.2.1⟩
  · split at h
    · rename_i bi k1 hr
      simp only [Option.some.injEq, Prod.mk.injEq] at h
      rw [h.1] at hr
      exact (mem_Up _ _ _).1 (Random_some_mem _ _ _ _ _ hr)
    · simp at h
  · split at h
    · rename_i bi k1 hr
      simp only [Option.some.injEq, Prod.mk.injEq] at h
      rw [h.1] at hr
      exact (mem_Up _ _ _).1 (WeightedRandom_some_mem _ _ _ _ _ _ hr)
    · simp at h
  · simp only [Option.some.injEq, Prod.mk.injEq] at h
    exact (mem_Up _ _ _).1 (At_some_mem _ _ _ h.1)

/-! ## The balancer: selection, fallback and bookkeeping -/

/-- A call of `pickNext` whose switch selects a backend returns it. -/
theorem pickNext_of_selected (rnd : RandSrc) (w : World) (b : Balancer) (a : Ptr) (k : Nat)
    (c : Int) (h : Balancer.selectByMode rnd w b = some (some a, k, c)) :
    Balancer.pickNext rnd w b =
      some (a,
        { heap := Function.update w.heap a ((w.heap a).incConnections 1), draws := k },
        { b with cursor := c }) := by
  simp [Balancer.pickNext, h, Balancer.fallback]

/-- A call of `pickNext` whose switch selects nothing returns what the draw of
the fallback gives. -/
theorem pickNext_of_fallback (rnd : RandSrc) (w : World) (b : Balancer) (a : Ptr)
    (k k1 : Nat) (c : Int) (h : Balancer.selectByMode rnd w b = some (none, k, c))
    (hr : pool.Random rnd k b.selector = some (some a, k1)) :
    Balancer.pickNext rnd w b =
      some (a,
        { heap := Function.update w.heap a ((w.heap a).incConnections 1), draws := k1 },
        { b with cursor := c }) := by
  simp [Balancer.pickNext, h, Balancer.fallback, hr]

/-- With every backend down the switch selects nothing, in every mode, and
makes no draw. -/
theorem selectByMode_allDown (rnd : RandSrc) (w : World) (b : Balancer)
    (hd : AllDown w.heap b.selector) :
    ∃ c, Balancer.selectByMode rnd w b = some (none, w.draws, c) := by
  have hup := Up_eq_nil_of_allDown w.heap b.selector hd
  unfold Balancer.selectByMode
  cases b.mode
  · exact ⟨b.cursor, by simp [MinUp_allDown _ _ _ hd]⟩
  · exact ⟨b.cursor, by simp [(FirstUp_eq_none_iff _ _).2 hd]⟩
  · exact ⟨b.cursor, by simp [MinUp_allDown _ _ _ hd]⟩
  · exact ⟨b.cursor, by simp [hup, Random_nil]⟩
  · exact ⟨b.cursor, by simp [hup, pool.WeightedRandom]⟩
  · exact ⟨wrap32 (b.cursor + 1), by simp [hup, pool.At]⟩

/-- C3: in every mode, on a non-empty pool in which every backend is down,
`pickNext` returns the element `selector[r]` of the pool, where `r` is the
value in `[0, len(selector))` of the one draw made, the draw of the fallback
`Random` over the whole pool; when the backends of the pool are distinct no
other index holds the returned backend. -/
theorem pickNext_all_down (rnd : RandSrc) (hv : rnd.Valid) (w : World) (b : Balancer)
    (hne : b.selector ≠ []) (hd : AllDown w.heap b.selector) :
    ∃ (r : Nat) (hr : r < b.selector.length) (w1 : World) (b1 : Balancer),
      rnd w.draws (b.selector.length : Int) = (r : Int) ∧
      Balancer.pickNext rnd w b = some (b.selector[r], w1, b1) ∧
      w1.draws = w.draws + 1 ∧
      (b.selector.Nodup → ∀ (j : Nat) (hj : j < b.selector.length),
        b.selector[j] = b.selector[r] → j = r) := by
  obtain ⟨c, hc⟩ := selectByMode_allDown rnd w b hd
  obtain ⟨r, hr, hdraw, hrand⟩ := Random_of_valid rnd hv w.draws b.selector hne
  refine ⟨r, hr, _, _, hdraw, pickNext_of_fallback rnd w b _ _ _ c hc hrand, rfl, ?_⟩
  intro hnd j hj heq
  exact (List.Nodup.getElem_inj_iff hnd).1 heq

theorem zeroSrc_valid : RandSrc.Valid zeroSrc := by
  intro k n hn
  exact ⟨le_refl _, hn⟩

/-- C3, witness: the pool of the test suite with all four backends down, any
mode (here `ModeRandom`) and a source drawing zero. -/
theorem pickNext_all_down_witness :
    RandSrc.Valid zeroSrc ∧ testPool ≠ [] ∧ AllDown testHeapAllDown testPool ∧
    ∃ (r : Nat) (hr : r < testPool.length) (w1 : World) (b1 : Balancer),
      zeroSrc 0 (testPool.length : Int) = (r : Int) ∧
      Balancer.pickNext zeroSrc { heap := testHeapAllDown, draws := 0 }
        (testBalancer .ModeRandom) = some (testPool[r], w1, b1) ∧
      w1.draws = 0 + 1 ∧
      (testPool.Nodup → ∀ (j : Nat) (hj : j < testPool.length),
        testPool[j] = testPool[r] → j = r) :=
  ⟨zeroSrc_valid, by decide, by intro a _; rfl,
    pickNext_all_down zeroSrc zeroSrc_valid { heap := testHeapAllDown, draws := 0 }
      (testBalancer .ModeRandom) (by decide) (by intro a _; rfl)⟩

/-- C8: `pool.FirstUp` returns nil exactly when no backend is up; and when a
backend is up, `pickNext` in `ModeFirstUp` returns the first backend in pool
order whose `Up()` is true, which is the first element of `Up(pool)`, whatever
the connections, the latencies and the random source are: every world with the
same flags and every source give the same backend. -/
theorem pickNext_FirstUp (rnd : RandSrc) (w : World) (b : Balancer)
    (hm : b.mode = .ModeFirstUp) :
    (pool.FirstUp w.heap b.selector = none ↔ AllDown w.heap b.selector) ∧
    (SomeUp w.heap b.selector →
      ∃ (a : Ptr) (front back : List Ptr),
        b.selector = front ++ a :: back ∧
        (∀ x ∈ front, (w.heap x).Up = false) ∧ (w.heap a).Up = true ∧
        (pool.Up w.heap b.selector).head? = some a ∧
        pool.FirstUp w.heap b.selector = some a ∧
        (Balancer.pickNext rnd w b).map (fun r => r.1) = some a ∧
        ∀ (rnd2 : RandSrc) (w2 : World),
          (∀ x ∈ b.selector, (w2.heap x).Up = (w.heap x).Up) →
          (Balancer.pickNext rnd2 w2 b).map (fun r => r.1) = some a) := by
  refine ⟨FirstUp_eq_none_iff _ _, ?_⟩
  intro hup
  have hsome : ∃ a, pool.FirstUp w.heap b.selector = some a := by
    cases hf : pool.FirstUp w.heap b.selector with
    | some a => exact ⟨a, rfl⟩
    | none =>
      exfalso
      obtain ⟨x, hx, hxu⟩ := hup
      have := (FirstUp_eq_none_iff _ _).1 hf x hx
      rw [this] at hxu
      exact Bool.false_ne_true hxu
  obtain ⟨a, ha⟩ := hsome
  have hchar := ha
  simp only [pool.FirstUp, pool.first, List.find?_eq_some] at hchar
  obtain ⟨hau, front, back, hsplit, hfront⟩ := hchar
  have hpick : ∀ (rnd2 : RandSrc) (w2 : World),
      (∀ x ∈ b.selector, (w2.heap x).Up = (w.heap x).Up) →
      (Balancer.pickNext rnd2 w2 b).map (fun r => r.1) = some a := by
    intro rnd2 w2 hsame
    have hsel : Balancer.selectByMode rnd2 w2 b = some (some a, w2.draws, b.cursor) := by
      unfold Balancer.selectByMode
      rw [hm]
      simp only
      rw [FirstUp_congr w.heap w2.heap b.selector hsame, ha]
    rw [pickNext_of_selected rnd2 w2 b a _ _ hsel]
    rfl
  refine ⟨a, front, back, hsplit, ?_, hau, ?_, ha, hpick rnd w (fun _ _ => rfl), hpick⟩
  · intro x hx
    simpa using hfront x hx
  · rw [← FirstUp_eq_head, ha]

/-- C8, witness: the pool of the test suite in `ModeFirstUp`; host-2, at
address 1, is picked. -/
theorem pickNext_FirstUp_witness :
    (testBalancer .ModeFirstUp).mode = .ModeFirstUp ∧
    SomeUp testHeap testPool ∧
    (Balancer.pickNext zeroSrc { heap := testHeap, draws := 0 }
      (testBalancer .ModeFirstUp)).map (fun r => r.1) = some 1 := by
  have hup : SomeUp testHeap testPool := ⟨1, by decide, rfl⟩
  obtain ⟨a, front, back, _, _, _, hhead, _, hpick, _⟩ :=
    (pickNext_FirstUp zeroSrc { heap := testHeap, draws := 0 }
      (testBalancer .ModeFirstUp) rfl).2 hup
  have h1 : (pool.Up testHeap testPool).head? = some 1 := by decide
  have ha : a = 1 := by
    have h2 : (pool.Up testHeap (testBalancer .ModeFirstUp).selector).head? = some 1 := h1
    rw [hhead] at h2
    exact Option.some.inj h2
  subst ha
  exact ⟨rfl, hup, hpick⟩

/-! ## `At` and the round-robin cursor -/

/-- The index `At` computes: after the truncated remainder and the sign
correction it is the absolute value of the position modulo the length. -/
theorem At_index (pos : Int) (n : Nat) (hpos : 0 < n)
    (hn : (n : Int) ≤ 9223372036854775807) :
    (if Int.tmod pos (n : Int) < 0 then wrap64 (Int.tmod pos (n : Int) * (-1))
      else Int.tmod pos (n : Int)).toNat = pos.natAbs % n := by
  cases pos with
  | ofNat m =>
    have ht : Int.tmod (Int.ofNat m) (n : Int) = ((m % n : Nat) : Int) := rfl
    rw [ht, if_neg (by omega)]
    have hna : (Int.ofNat m).natAbs = m := rfl
    rw [hna]
    exact Int.toNat_ofNat _
  | negSucc m =>
    have ht : Int.tmod (Int.negSucc m) (n : Int) = -(((m + 1) % n : Nat) : Int) := rfl
    rw [ht]
    have hna : (Int.negSucc m).natAbs = m + 1 := rfl
    rw [hna]
    have hlt : (m + 1) % n < n := Nat.mod_lt _ hpos
    split_ifs with hneg
    · rw [wrap64_of_range _ (by omega) (by omega)]
      omega
    · omega

/-- The method `At` on a non-empty pool returns the element whose index is the
absolute value of the position modulo the length. -/
theorem At_eq (p : pool) (pos : Int) (hne : p ≠ [])
    (hlen : (p.length : Int) ≤ 9223372036854775807) :
    pool.At p pos = p[pos.natAbs % p.length]? := by
  have hpos : 0 < p.length := List.length_pos.mpr hne
  unfold pool.At
  simp only
  rw [if_neg (by omega), At_index pos p.length hpos hlen]

/-- The round-robin branch: the cursor is incremented as an `int32` and the
backend of `Up(pool)` at the index of the new cursor is selected. -/
theorem selectByMode_RoundRobin (rnd : RandSrc) (w : World) (b : Balancer)
    (hm : b.mode = .ModeRoundRobin) :
    Balancer.selectByMode rnd w b =
      some (pool.At (pool.Up w.heap b.selector) (wrap32 (b.cursor + 1)), w.draws,
        wrap32 (b.cursor + 1)) := by
  unfold Balancer.selectByMode
  rw [hm]

theorem length_Up_le (h : Heap) (p : pool) : (pool.Up h p).length ≤ p.length := by
  simp only [pool.Up, pool.all]
  exact List.length_filter_le _ _

/-- One round-robin call with a backend up: the backend of `Up(pool)` at index
`|cursor + 1| mod N` is returned, the cursor is incremented and the
up-subsequence is the same afterwards. -/
theorem pickNext_RoundRobin (rnd : RandSrc) (w : World) (b : Balancer)
    (hm : b.mode = .ModeRoundRobin)
    (hlen : (b.selector.length : Int) ≤ 9223372036854775807)
    (hup : SomeUp w.heap b.selector) :
    ∃ (a : Ptr) (w1 : World),
      (pool.Up w.heap b.selector)[(wrap32 (b.cursor + 1)).natAbs %
        (pool.Up w.heap b.selector).length]? = some a ∧
      Balancer.pickNext rnd w b = some (a, w1, { b with cursor := wrap32 (b.cursor + 1) }) ∧
      pool.Up w1.heap b.selector = pool.Up w.heap b.selector := by
  have hne := Up_ne_nil_of_someUp w.heap b.selector hup
  have hpos : 0 < (pool.Up w.heap b.selector).length := List.length_pos.mpr hne
  have hl := length_Up_le w.heap b.selector
  have hidx : (wrap32 (b.cursor + 1)).natAbs % (pool.Up w.heap b.selector).length
      < (pool.Up w.heap b.selector).length := Nat.mod_lt _ hpos
  have hat := At_eq (pool.Up w.heap b.selector) (wrap32 (b.cursor + 1)) hne (by omega)
  rw [List.getElem?_eq_getElem hidx] at hat
  have hsel := selectByMode_RoundRobin rnd w b hm
  rw [hat] at hsel
  refine ⟨_, _, List.getElem?_eq_getElem hidx, pickNext_of_selected rnd w b _ _ _ hsel, ?_⟩
  exact Up_congr _ _ _ (fun c _ => Up_update_inc w.heap _ 1 c)

/-- C7, counterexample: the pool of the test suite (`Up(pool)` is host-2,
host-3, host-4 at the addresses 1, 2, 3) in `ModeRoundRobin` with the cursor at
`-3`. Two consecutive calls return `Up(pool)[2]` and then `Up(pool)[1]`, while
the successor of index 2 in cyclic order is index 0. -/
theorem roundRobin_negative_cursor_runs_backwards :
    pool.Up testHeap testPool = [1, 2, 3] ∧
    (pickTimes zeroSrc 2 { heap := testHeap, draws := 0 }
      { selector := testPool, mode := .ModeRoundRobin, cursor := -3 }).map
        (fun r => r.1) = some [3, 2] ∧
    ∀ i : Fin 3, (pool.Up testHeap testPool)[i.val]? = some 3 →
      (pool.Up testHeap testPool)[(i.val + 1) % 3]? ≠ some 2 := by
  refine ⟨by decide, by decide, by decide⟩

/-- C7, amended: in `ModeRoundRobin` with `N >= 1` backends up, for every cursor
value `c` with `-1 <= c <= 2^31 - 2` (the wrap from the maximum to the minimum
value included), and for every cursor value when `N <= 2`, two consecutive
calls of `pickNext` return consecutive elements of `Up(pool)` in cyclic order:
the first returns `Up(pool)[i]`, the second `Up(pool)[(i+1) mod N]`, and
`Up(pool)` is the same for both calls. The length of the pool is that of a Go
slice, an `int`. -/
theorem pickNext_RoundRobin_consecutive (rnd : RandSrc) (w : World) (b : Balancer)
    (hm : b.mode = .ModeRoundRobin)
    (hlen : (b.selector.length : Int) ≤ 9223372036854775807)
    (hup : SomeUp w.heap b.selector)
    (hc : (-1 ≤ b.cursor ∧ b.cursor ≤ 2147483646) ∨
      (pool.Up w.heap b.selector).length ≤ 2) :
    ∃ (i : Nat) (a1 a2 : Ptr) (w1 w2 : World) (b1 b2 : Balancer),
      Balancer.pickNext rnd w b = some (a1, w1, b1) ∧
      Balancer.pickNext rnd w1 b1 = some (a2, w2, b2) ∧
      pool.Up w1.heap b1.selector = pool.Up w.heap b.selector ∧
      (pool.Up w.heap b.selector)[i]? = some a1 ∧
      (pool.Up w.heap b.selector)[(i + 1) % (pool.Up w.heap b.selector).length]?
        = some a2 := by
  obtain ⟨a1, w1, hidx1, hpick1, hup1⟩ := pickNext_RoundRobin rnd w b hm hlen hup
  have hup2 : SomeUp w1.heap b.selector := by
    obtain ⟨x, hx, hxu⟩ := hup
    have : x ∈ pool.Up w1.heap b.selector := by
      rw [hup1]; exact (mem_Up _ _ _).2 ⟨hx, hxu⟩
    exact ⟨x, hx, ((mem_Up _ _ _).1 this).2⟩
  obtain ⟨a2, w2, hidx2, hpick2, _⟩ := pickNext_RoundRobin rnd w1
    { b with cursor := wrap32 (b.cursor + 1) } hm hlen hup2
  simp only at hidx2 hpick2
  rw [hup1] at hidx2
  refine ⟨_, a1, a2, w1, w2, _, _, hpick1, hpick2, hup1, hidx1, ?_⟩
  rw [← hidx2]
  congr 1
  rw [Nat.mod_add_mod]
  have hne := Up_ne_nil_of_someUp w.heap b.selector hup
  have hpos : 0 < (pool.Up w.heap b.selector).length := List.length_pos.mpr hne
  rcases hc with ⟨hc1, hc2⟩ | hN
  · have : (wrap32 (wrap32 (b.cursor + 1) + 1)).natAbs
        = (wrap32 (b.cursor + 1)).natAbs + 1 := by
      unfold wrap32; omega
    rw [this]
  · have hpar : (wrap32 (wrap32 (b.cursor + 1) + 1)).natAbs % 2
        = ((wrap32 (b.cursor + 1)).natAbs + 1) % 2 := by
      unfold wrap32; omega
    generalize (pool.Up w.heap b.selector).length = N at hN hpos ⊢
    interval_cases N
    · simp [Nat.mod_one]
    · exact hpar.symm

/-- C7, witness: the pool of the test suite in `ModeRoundRobin` with the cursor
at zero; host-3 and then host-4 (addresses 2 and 3) are returned, as the test
expects. -/
theorem pickNext_RoundRobin_consecutive_witness :
    (testBalancer .ModeRoundRobin).mode = .ModeRoundRobin ∧
    SomeUp testHeap testPool ∧
    (∃ (i : Nat) (a1 a2 : Ptr) (w1 w2 : World) (b1 b2 : Balancer),
      Balancer.pickNext zeroSrc { heap := testHeap, draws := 0 }
        (testBalancer .ModeRoundRobin) = some (a1, w1, b1) ∧
      Balancer.pickNext zeroSrc w1 b1 = some (a2, w2, b2) ∧
      pool.Up w1.heap b1.selector = pool.Up testHeap testPool ∧
      (pool.Up testHeap testPool)[i]? = some a1 ∧
      (pool.Up testHeap testPool)[(i + 1) % (pool.Up testHeap testPool).length]?
        = some a2) ∧
    (pickTimes zeroSrc 2 { heap := testHeap, draws := 0 }
      (testBalancer .ModeRoundRobin)).map (fun r => r.1) = some [2, 3] :=
  ⟨rfl, ⟨1, by decide, rfl⟩,
    pickNext_RoundRobin_consecutive zeroSrc { heap := testHeap, draws := 0 }
      (testBalancer .ModeRoundRobin) rfl (by decide) ⟨1, by decide, rfl⟩
      (Or.inl (by decide)),
    by decide⟩

/-! ## Connection bookkeeping -/

/-- The shape of every result of `pickNext`: the backend comes from the switch
or, when the switch selected nothing, from the fallback draw; the only change in
memory is the increment of the gauge of that backend; the balancer keeps its
pool and mode. -/
theorem pickNext_shape (rnd : RandSrc) (w : World) (b : Balancer) (a : Ptr) (w1 : World)
    (b1 : Balancer) (h : Balancer.pickNext rnd w b = some (a, w1, b1)) :
    (∃ k c, (Balancer.selectByMode rnd w b = some (some a, k, c) ∨
        ∃ k0, Balancer.selectByMode rnd w b = some (none, k0, c) ∧
          pool.Random rnd k0 b.selector = some (some a, k)) ∧
      w1.draws = k ∧ b1.cursor = c) ∧
    w1.heap = Function.update w.heap a ((w.heap a).incConnections 1) ∧
    b1.selector = b.selector ∧ b1.mode = b.mode := by
  unfold Balancer.pickNext at h
  cases hs : Balancer.selectByMode rnd w b with
  | none => rw [hs] at h; exact absurd h (by simp)
  | some r =>
    obtain ⟨bi, k, c⟩ := r
    rw [hs] at h
    simp only at h
    cases hf : Balancer.fallback rnd b bi k with
    | none => rw [hf] at h; exact absurd h (by simp)
    | some r2 =>
      obtain ⟨res, k1⟩ := r2
      rw [hf] at h
      cases res with
      | none => exact absurd h (by simp)
      | some a0 =>
        simp only [Option.some.injEq, Prod.mk.injEq] at h
        obtain ⟨ha, hw, hb⟩ := h
        subst ha
        subst hw
        subst hb
        refine ⟨⟨k1, c, ?_, rfl, rfl⟩, rfl, rfl, rfl⟩
        cases bi with
        | some a1 =>
          left
          simp only [Balancer.fallback, Option.some.injEq, Prod.mk.injEq] at hf
          rw [hf.1, hf.2]
        | none =>
          right
          exact ⟨k, rfl, hf⟩

/-- The backend `pickNext` returns is an element of the pool. -/
theorem pickNext_mem (rnd : RandSrc) (w : World) (b : Balancer) (a : Ptr) (w1 : World)
    (b1 : Balancer) (h : Balancer.pickNext rnd w b = some (a, w1, b1)) : a ∈ b.selector := by
  obtain ⟨⟨k, c, hsel, _, _⟩, _, _, _⟩ := pickNext_shape rnd w b a w1 b1 h
  rcases hsel with hsel | ⟨k0, _, hr⟩
  · exact (selectByMode_selected_up rnd w b a k c hsel).1
  · exact Random_some_mem rnd k0 k b.selector a hr

/-- Outside `ModeWeightedLatency` the switch does not panic. -/
theorem selectByMode_total (rnd : RandSrc) (hv : rnd.Valid) (w : World) (b : Balancer)
    (hm : b.mode ≠ .ModeWeightedLatency) :
    ∃ bi k c, Balancer.selectByMode rnd w b = some (bi, k, c) := by
  unfold Balancer.selectByMode
  cases hmode : b.mode
  · exact ⟨_, _, _, rfl⟩
  · exact ⟨_, _, _, rfl⟩
  · exact ⟨_, _, _, rfl⟩
  · simp only
    by_cases hne : pool.Up w.heap b.selector = []
    · rw [hne, Random_nil]
      exact ⟨_, _, _, rfl⟩
    · obtain ⟨r, hr, _, hrand⟩ := Random_of_valid rnd hv w.draws _ hne
      rw [hrand]
      exact ⟨_, _, _, rfl⟩
  · exact absurd hmode hm
  · exact ⟨_, _, _, rfl⟩

/-- On a non-empty pool, whenever the switch does not panic, `pickNext`
returns a backend. -/
theorem pickNext_returns_of_select (rnd : RandSrc) (hv : rnd.Valid) (w : World)
    (b : Balancer) (hne : b.selector ≠ []) (bi : Option Ptr) (k : Nat) (c : Int)
    (hs : Balancer.selectByMode rnd w b = some (bi, k, c)) :
    ∃ a w1 b1, Balancer.pickNext rnd w b = some (a, w1, b1) := by
  cases bi with
  | some a => exact ⟨a, _, _, pickNext_of_selected rnd w b a k c hs⟩
  | none =>
    obtain ⟨r, hr, _, hrand⟩ := Random_of_valid rnd hv k b.selector hne
    exact ⟨_, _, _, pickNext_of_fallback rnd w b _ k _ c hs hrand⟩

/-- C5, counterexample: a pool of one backend that is up with its gauge at the
largest `int64`, in `ModeFirstUp`. The call returns that backend with its gauge
at the smallest `int64`, not at the old value plus one. -/
theorem pickNext_gauge_wraps_at_maxInt64 :
    ∃ (w1 : World) (b1 : Balancer),
      Balancer.pickNext zeroSrc
        { heap := fun _ => { initialBackend (mockOpts "host-1:4150") with
            connections := 9223372036854775807 }, draws := 0 }
        { selector := [0], mode := .ModeFirstUp, cursor := 0 } = some (0, w1, b1) ∧
      (w1.heap 0).Connections = -9223372036854775808 ∧
      (w1.heap 0).Connections ≠ 9223372036854775807 + 1 := by
  refine ⟨_, _, pickNext_of_selected _ _ _ 0 0 0 (by decide), by decide, by decide⟩

/-- C5, amended: in every mode but `ModeWeightedLatency` a call of `pickNext`
on a non-empty pool returns a backend, and every call of `pickNext` that returns
(in `ModeWeightedLatency` too) returns an element of the pool whose
`Connections()` gauge it has set to the `int64` sum of the old value and 1,
which is the old value plus exactly 1 whenever the old value is below the
largest `int64`; the latency and the up/down status of that backend, every
field of every other backend, the pool and the mode are unchanged. -/
theorem pickNext_bookkeeping (rnd : RandSrc) (hv : rnd.Valid) (w : World) (b : Balancer)
    (hne : b.selector ≠ []) :
    (b.mode ≠ .ModeWeightedLatency →
      ∃ a w1 b1, Balancer.pickNext rnd w b = some (a, w1, b1)) ∧
    ∀ (a : Ptr) (w1 : World) (b1 : Balancer),
      Balancer.pickNext rnd w b = some (a, w1, b1) →
      a ∈ b.selector ∧
      (w1.heap a).Connections = wrap64 ((w.heap a).Connections + 1) ∧
      (-9223372036854775808 ≤ (w.heap a).Connections ∧
        (w.heap a).Connections < 9223372036854775807 →
        (w1.heap a).Connections = (w.heap a).Connections + 1) ∧
      (w1.heap a).Latency = (w.heap a).Latency ∧
      (w1.heap a).Up = (w.heap a).Up ∧
      (∀ c : Ptr, c ≠ a → w1.heap c = w.heap c) ∧
      b1.selector = b.selector ∧ b1.mode = b.mode := by
  constructor
  · intro hm
    obtain ⟨bi, k, c, hs⟩ := selectByMode_total rnd hv w b hm
    exact pickNext_returns_of_select rnd hv w b hne bi k c hs
  · intro a w1 b1 h
    obtain ⟨_, hheap, hsel, hmode⟩ := pickNext_shape rnd w b a w1 b1 h
    have hconn : (w1.heap a).Connections = wrap64 ((w.heap a).Connections + 1) := by
      rw [hheap]
      simp [nsqBackend.Connections, nsqBackend.incConnections]
    refine ⟨pickNext_mem rnd w b a w1 b1 h, hconn, ?_, ?_, ?_, ?_, hsel, hmode⟩
    · rintro ⟨h1, h2⟩
      rw [hconn]
      exact wrap64_of_range _ (by omega) (by omega)
    · rw [hheap]
      simp [nsqBackend.Latency, nsqBackend.incConnections]
    · rw [hheap]
      exact Up_update_inc w.heap a 1 a
    · intro c hc
      rw [hheap]
      exact Function.update_noteq hc _ _

/-- C5, witness: the pool of the test suite in `ModeFirstUp`. Four calls all
return host-2 and raise its gauge from 10 to 14; the gauges of the other three
backends stay at 0, 8 and 14. -/
theorem pickNext_bookkeeping_witness :
    RandSrc.Valid zeroSrc ∧ (testBalancer .ModeFirstUp).selector ≠ [] ∧
    (∃ a w1 b1, Balancer.pickNext zeroSrc { heap := testHeap, draws := 0 }
      (testBalancer .ModeFirstUp) = some (a, w1, b1)) ∧
    (pickTimes zeroSrc 4 { heap := testHeap, draws := 0 } (testBalancer .ModeFirstUp)).map
      (fun r => (r.1, (r.2.1.heap 0).Connections, (r.2.1.heap 1).Connections,
        (r.2.1.heap 2).Connections, (r.2.1.heap 3).Connections))
      = some ([1, 1, 1, 1], 0, 14, 8, 14) :=
  ⟨zeroSrc_valid, by decide,
    (pickNext_bookkeeping zeroSrc zeroSrc_valid { heap := testHeap, draws := 0 }
      (testBalancer .ModeFirstUp) (by decide)).1 (by decide),
    by decide⟩

/-! ## Never a down backend while one is up -/

/-- The switch selects a backend in `ModeFirstUp`, `ModeRandom` and
`ModeRoundRobin` whenever one is up, and in `ModeLeastConn` and
`ModeMinLatency` whenever an up backend has its metric below
`math.MaxInt64`. -/
theorem selectByMode_selects (rnd : RandSrc) (hv : rnd.Valid) (w : World) (b : Balancer)
    (hlen : (b.selector.length : Int) ≤ 9223372036854775807)
    (hup : SomeUp w.heap b.selector)
    (hwl : b.mode ≠ .ModeWeightedLatency)
    (hconn : b.mode = .ModeLeastConn →
      ∃ c ∈ b.selector, (w.heap c).Up = true ∧ (w.heap c).Connections < maxInt64)
    (hlat : b.mode = .ModeMinLatency →
      ∃ c ∈ b.selector, (w.heap c).Up = true ∧ (w.heap c).Latency < maxInt64) :
    ∃ a k c, Balancer.selectByMode rnd w b = some (some a, k, c) := by
  have hne := Up_ne_nil_of_someUp w.heap b.selector hup
  have hminup : ∀ f : Ptr → Int, (∃ c ∈ b.selector, (w.heap c).Up = true ∧ f c < maxInt64) →
      ∃ a, pool.MinUp w.heap b.selector f = some a := by
    intro f ⟨c, hc, hcu, hlt⟩
    cases hr : pool.MinUp w.heap b.selector f with
    | some a => exact ⟨a, rfl⟩
    | none =>
      have := (MinUp_eq_none_iff _ _ _).1 hr c hc hcu
      omega
  unfold Balancer.selectByMode
  cases hmode : b.mode
  · obtain ⟨a, ha⟩ := hminup _ (hconn hmode)
    exact ⟨a, w.draws, b.cursor, by simp only [ha]⟩
  · cases hf : pool.FirstUp w.heap b.selector with
    | some a => exact ⟨a, _, _, rfl⟩
    | none =>
      exfalso
      rw [FirstUp_eq_head] at hf
      cases hl : pool.Up w.heap b.selector with
      | nil => exact hne hl
      | cons x xs => rw [hl] at hf; simp at hf
  · obtain ⟨a, ha⟩ := hminup _ (hlat hmode)
    exact ⟨a, w.draws, b.cursor, by simp only [ha]⟩
  · obtain ⟨r, hr, _, hrand⟩ := Random_of_valid rnd hv w.draws _ hne
    exact ⟨_, w.draws + 1, b.cursor, by rw [hrand]⟩
  · exact absurd hmode hwl
  · have hpos : 0 < (pool.Up w.heap b.selector).length := List.length_pos.mpr hne
    have hl := length_Up_le w.heap b.selector
    have hidx : (wrap32 (b.cursor + 1)).natAbs % (pool.Up w.heap b.selector).length
        < (pool.Up w.heap b.selector).length := Nat.mod_lt _ hpos
    have hat := At_eq (pool.Up w.heap b.selector) (wrap32 (b.cursor + 1)) hne (by omega)
    rw [List.getElem?_eq_getElem hidx] at hat
    exact ⟨(pool.Up w.heap b.selector)[(wrap32 (b.cursor + 1)).natAbs %
      (pool.Up w.heap b.selector).length], w.draws, wrap32 (b.cursor + 1),
      by simp only [hat]⟩

/-- Where `pickNext` does return an up backend: in `ModeFirstUp`, `ModeRandom`
and `ModeRoundRobin` whenever a backend is up, and in `ModeLeastConn` and
`ModeMinLatency` whenever an up backend has its metric below
`math.MaxInt64`. -/
theorem pickNext_up_of_selects (rnd : RandSrc) (hv : rnd.Valid) (w : World) (b : Balancer)
    (hlen : (b.selector.length : Int) ≤ 9223372036854775807)
    (hup : SomeUp w.heap b.selector)
    (hwl : b.mode ≠ .ModeWeightedLatency)
    (hconn : b.mode = .ModeLeastConn →
      ∃ c ∈ b.selector, (w.heap c).Up = true ∧ (w.heap c).Connections < maxInt64)
    (hlat : b.mode = .ModeMinLatency →
      ∃ c ∈ b.selector, (w.heap c).Up = true ∧ (w.heap c).Latency < maxInt64) :
    ∃ a w1 b1, Balancer.pickNext rnd w b = some (a, w1, b1) ∧
      a ∈ b.selector ∧ (w.heap a).Up = true ∧ (w1.heap a).Up = true := by
  obtain ⟨a, k, c, hsel⟩ := selectByMode_selects rnd hv w b hlen hup hwl hconn hlat
  have hau := selectByMode_selected_up rnd w b a k c hsel
  refine ⟨a, _, _, pickNext_of_selected rnd w b a k c hsel, hau.1, hau.2, ?_⟩
  simp only
  rw [Up_update_inc]
  exact hau.2

/-- C4, at two failing inputs. First, `ModeMinLatency` on a pool whose first
backend is down and whose second backend is up with a latency of
`math.MaxInt64`: a backend is up, `MinUp` returns nil, and with a fallback draw
of 0 `pickNext` returns the first backend, which is down. Second,
`ModeWeightedLatency` on a pool of one up backend with latency 0: `pickNext`
panics in `rand.Int63n(0)` and returns nothing. -/
theorem pickNext_returns_down_while_one_is_up :
    SomeUp (saturatedHeap 9223372036854775807) [0, 1] ∧
    pool.MinUp (saturatedHeap 9223372036854775807) [0, 1]
      (fun a => (saturatedHeap 9223372036854775807 a).Latency) = none ∧
    (Balancer.pickNext zeroSrc { heap := saturatedHeap 9223372036854775807, draws := 0 }
      { selector := [0, 1], mode := .ModeMinLatency, cursor := 0 }).map (fun r => r.1)
      = some 0 ∧
    (saturatedHeap 9223372036854775807 0).Up = false ∧
    SomeUp (saturatedHeap 0) [1] ∧
    (Balancer.pickNext zeroSrc { heap := saturatedHeap 0, draws := 0 }
      { selector := [1], mode := .ModeWeightedLatency, cursor := 0 }).isNone = true := by
  refine ⟨⟨1, by decide, by decide⟩, by decide, by decide, by decide,
    ⟨1, by decide, by decide⟩, by decide⟩

/-! ## `ModeLeastConn` -/

/-- The scenario of the least-conn test: on the pool with connection counts
0 (down), 10, 8, 14 the five picks are host-3, host-3, host-2, host-3, host-2
(addresses 2, 2, 1, 2, 1), ending with host-2 at 12 and host-3 at 11. -/
theorem leastConn_test_scenario :
    (pickTimes zeroSrc 5 { heap := testHeap, draws := 0 }
      (testBalancer .ModeLeastConn)).map
      (fun r => (r.1, (r.2.1.heap 1).Connections, (r.2.1.heap 2).Connections))
      = some ([2, 2, 1, 2, 1], 12, 11) := by
  decide!

/-- Where `ModeLeastConn` does what its name says: when an up backend has fewer
than `math.MaxInt64` connections, `pickNext` returns an up backend whose
`Connections()` value before the call is at most that of every up backend,
and adds one to it. -/
theorem pickNext_LeastConn_of_unsaturated (rnd : RandSrc) (w : World) (b : Balancer)
    (hm : b.mode = .ModeLeastConn)
    (hconn : ∃ c ∈ b.selector, (w.heap c).Up = true ∧ (w.heap c).Connections < maxInt64) :
    ∃ a w1 b1, Balancer.pickNext rnd w b = some (a, w1, b1) ∧
      a ∈ b.selector ∧ (w.heap a).Up = true ∧
      (∀ c ∈ b.selector, (w.heap c).Up = true →
        (w.heap a).Connections ≤ (w.heap c).Connections) ∧
      (w1.heap a).Connections = wrap64 ((w.heap a).Connections + 1) ∧
      pool.Up w1.heap b1.selector = pool.Up w.heap b.selector := by
  obtain ⟨c, hc, hcu, hlt⟩ := hconn
  cases hr : pool.MinUp w.heap b.selector (fun a => (w.heap a).Connections) with
  | none =>
    have := (MinUp_eq_none_iff _ _ _).1 hr c hc hcu
    simp only at this
    omega
  | some a =>
    have hspec := MinUp_some _ _ _ _ hr
    have hsel : Balancer.selectByMode rnd w b = some (some a, w.draws, b.cursor) := by
      unfold Balancer.selectByMode
      rw [hm]
      simp only [hr]
    refine ⟨a, _, _, pickNext_of_selected rnd w b a _ _ hsel, hspec.1, hspec.2.1,
      hspec.2.2, ?_, ?_⟩
    · simp [nsqBackend.Connections, nsqBackend.incConnections]
    · exact Up_congr _ _ _ (fun x _ => Up_update_inc w.heap _ 1 x)

/-- C6, at the failing input: `ModeLeastConn` on a pool whose first backend is
down with 0 connections and whose second backend is up with `math.MaxInt64`
connections. A backend is up, yet with a fallback draw of 0 `pickNext` returns
the first backend, which is down, and increments the gauge of that backend. -/
theorem leastConn_saturated_gauge_returns_down :
    (saturatedHeap 9223372036854775807 1).Up = true ∧
    (saturatedHeap 9223372036854775807 0).Up = false ∧
    (Balancer.pickNext zeroSrc { heap := saturatedHeap 9223372036854775807, draws := 0 }
      { selector := [0, 1], mode := .ModeLeastConn, cursor := 0 }).map
      (fun r => (r.1, (r.2.1.heap 0).Connections, (r.2.1.heap 1).Connections))
      = some (0, 1, 9223372036854775807) := by
  decide

/-! ## `Balancer.Close` -/

/-- The loop of `Close` appends the backends it visits, in order, to the list
of calls. -/
theorem closeLoop_calls (close : Ptr → Option String) (xs : List Ptr)
    (acc : List Ptr × Option String) :
    (Balancer.closeLoop close xs acc).1 = acc.1 ++ xs := by
  induction xs generalizing acc with
  | nil => simp [Balancer.closeLoop]
  | cons x xs ih =>
    simp only [Balancer.closeLoop]
    rw [ih]
    simp

/-- The error the loop of `Close` ends with: the error it started with when no
backend visited returns one, otherwise the error of the last backend visited
that returns one. -/
theorem closeLoop_error (close : Ptr → Option String) (xs : List Ptr)
    (acc : List Ptr × Option String) :
    ((∀ x ∈ xs, close x = none) ∧ (Balancer.closeLoop close xs acc).2 = acc.2) ∨
    ∃ (front back : List Ptr) (a : Ptr) (e : String),
      xs = front ++ a :: back ∧ close a = some e ∧ (∀ x ∈ back, close x = none) ∧
      (Balancer.closeLoop close xs acc).2 = some e := by
  induction xs generalizing acc with
  | nil => left; exact ⟨by simp, rfl⟩
  | cons x xs ih =>
    simp only [Balancer.closeLoop]
    rcases ih (acc.1 ++ [x], match close x with | some e => some e | none => acc.2) with
      ⟨hall, herr⟩ | ⟨front, back, a, e, hsplit, ha, hback, herr⟩
    · cases hx : close x with
      | none =>
        left
        refine ⟨?_, ?_⟩
        · intro y hy
          rcases List.mem_cons.1 hy with rfl | hy
          · exact hx
          · exact hall y hy
        · rw [hx] at herr; exact herr
      | some e =>
        right
        refine ⟨[], xs, x, e, rfl, hx, hall, ?_⟩
        rw [hx] at herr; exact herr
    · right
      exact ⟨x :: front, back, a, e, by rw [hsplit]; rfl, ha, hback, herr⟩

/-- C11: whatever errors the backends return from `Close`, `Balancer.Close`
calls `Close` on every backend exactly once, in pool order, without stopping
at an error; it returns nil exactly when every backend returned nil, and
otherwise the error of the last backend in pool order that returned a non-nil
error. -/
theorem Close_error_policy (close : Ptr → Option String) (b : Balancer) :
    (Balancer.Close close b).1 = b.selector ∧
    ((Balancer.Close close b).2 = none ↔ ∀ x ∈ b.selector, close x = none) ∧
    ∀ e : String, (Balancer.Close close b).2 = some e →
      ∃ (front back : List Ptr) (a : Ptr),
        b.selector = front ++ a :: back ∧ close a = some e ∧
        ∀ x ∈ back, close x = none := by
  unfold Balancer.Close
  refine ⟨by rw [closeLoop_calls]; simp, ?_, ?_⟩
  · rcases closeLoop_error close b.selector ([], none) with
      ⟨hall, herr⟩ | ⟨front, back, a, e, hsplit, ha, _, herr⟩
    · exact ⟨fun _ => hall, fun _ => herr⟩
    · constructor
      · intro h; rw [herr] at h; exact absurd h (by simp)
      · intro hall
        have := hall a (by rw [hsplit]; simp)
        rw [ha] at this
        exact absurd this (by simp)
  · intro e he
    rcases closeLoop_error close b.selector ([], none) with
      ⟨_, herr⟩ | ⟨front, back, a, e1, hsplit, ha, hback, herr⟩
    · rw [herr] at he; exact absurd he (by simp)
    · rw [herr] at he
      have hee : e1 = e := Option.some.inj he
      subst hee
      exact ⟨front, back, a, hsplit, ha, hback⟩

/-- The policy of `Close` on the pool of the test suite when host-2 and host-4
fail to close: all four backends are closed in order and the error of host-4,
the later of the two, is returned. -/
theorem Close_keeps_last_error :
    Balancer.Close
      (fun a => if a = 1 then some "host-2 failed" else if a = 3 then some "host-4 failed"
        else none)
      (testBalancer .ModeFirstUp) = ([0, 1, 2, 3], some "host-4 failed") := by
  decide

/-! ## `WeightedRandom` -/

/-- The method `WeightedRandom` in terms of the sum and the transformed weights
it computes. -/
theorem WeightedRandom_eq (rnd : RandSrc) (k : Nat) (p : pool) (weight : Ptr → Int) :
    pool.WeightedRandom rnd k p weight =
      if p.length < 1 then some (none, k)
      else if pool.weightSum p weight ≤ 0 then none
      else some (pool.walk p (pool.transformedWeights p weight)
        (rnd k (pool.weightSum p weight)), k + 1) := rfl

theorem wrap64_sub_wrap (a b : Int) : wrap64 (wrap64 a - b) = wrap64 (a - b) := by
  unfold wrap64; omega

theorem wrap64_add_wrap (a b : Int) : wrap64 (wrap64 a + b) = wrap64 (a + b) := by
  unfold wrap64; omega

theorem wrap64_sub_wrap_right (a b : Int) : wrap64 (a - wrap64 b) = wrap64 (a - b) := by
  unfold wrap64; omega

/-- The running sum of the second loop is the `int64` reduction of the exact
sum. -/
theorem sumWeights_eq (ws : List Int) (s : Int) (hs : wrap64 s = s) :
    pool.sumWeights ws s = wrap64 (s + ws.sum) := by
  induction ws generalizing s with
  | nil => simp [pool.sumWeights, hs]
  | cons w rest ih =>
    simp only [pool.sumWeights, List.sum_cons]
    rw [ih _ (by unfold wrap64; omega), wrap64_add_wrap, add_assoc]

/-- When the third loop runs out without returning, the mark it ends with is
positive; that mark is the `int64` reduction of the first mark less the exact
sum of the weights. -/
theorem walk_none (p : List Ptr) (ws : List Int) (mark : Int)
    (hlen : p.length = ws.length) (hne : ws ≠ [])
    (h : pool.walk p ws mark = none) : 0 < wrap64 (mark - ws.sum) := by
  induction ws generalizing p mark with
  | nil => exact absurd rfl hne
  | cons w rest ih =>
    cases p with
    | nil => simp at hlen
    | cons b ps =>
      simp only [pool.walk] at h
      split_ifs at h with hle
      have hlen1 : ps.length = rest.length := by simpa using hlen
      cases rest with
      | nil =>
        simp only [List.sum_cons, List.sum_nil, add_zero]
        omega
      | cons w2 rest2 =>
        have := ih ps (wrap64 (mark - w)) hlen1 (by simp) h
        rw [wrap64_sub_wrap] at this
        rw [List.sum_cons]
        have heq : mark - (w + (w2 :: rest2).sum) = mark - w - (w2 :: rest2).sum := by ring
        rw [heq]
        exact this

theorem transformedWeights_length (p : pool) (weight : Ptr → Int) :
    (pool.transformedWeights p weight).length = p.length := by
  simp [pool.transformedWeights, pool.transformWeights]

/-- Where `WeightedRandom` is total: on a non-empty pool whose transformed
weights have a positive `int64` sum, with a draw in `[0, sum)`, it returns an
element of the pool; the final `return nil` is not reached. -/
theorem WeightedRandom_returns_of_pos_sum (rnd : RandSrc) (hv : rnd.Valid) (k : Nat)
    (p : pool) (weight : Ptr → Int) (hne : p ≠ [])
    (hsum : 0 < pool.weightSum p weight) :
    ∃ a, a ∈ p ∧ pool.WeightedRandom rnd k p weight = some (some a, k + 1) := by
  have hpos : 0 < p.length := List.length_pos.mpr hne
  obtain ⟨hm0, hm1⟩ := hv k _ hsum
  have hwr := WeightedRandom_eq rnd k p weight
  rw [if_neg (by omega), if_neg (by omega)] at hwr
  cases hw : pool.walk p (pool.transformedWeights p weight)
      (rnd k (pool.weightSum p weight)) with
  | some a =>
    rw [hw] at hwr
    exact ⟨a, walk_some_mem _ _ _ _ hw, hwr⟩
  | none =>
    exfalso
    have hlen := transformedWeights_length p weight
    have hwne : pool.transformedWeights p weight ≠ [] := by
      intro hnil
      rw [hnil] at hlen
      simp at hlen
      omega
    have hfin := walk_none p _ _ hlen.symm hwne hw
    have hsumeq : pool.weightSum p weight
        = wrap64 (0 + (pool.transformedWeights p weight).sum) :=
      sumWeights_eq _ 0 (by decide)
    rw [zero_add] at hsumeq
    rw [← wrap64_sub_wrap_right, ← hsumeq] at hfin
    have hr := wrap64_range (pool.transformedWeights p weight).sum
    rw [← hsumeq] at hr
    rw [wrap64_of_range _ (by omega) (by omega)] at hfin
    omega

/-- The method `WeightedRandom` returns nil only for an empty pool. -/
theorem WeightedRandom_nil_iff (rnd : RandSrc) (hv : rnd.Valid) (k k1 : Nat) (p : pool)
    (weight : Ptr → Int) :
    pool.WeightedRandom rnd k p weight = some (none, k1) ↔ p = [] ∧ k1 = k := by
  constructor
  · intro h
    by_cases hne : p = []
    · subst hne
      simp [pool.WeightedRandom] at h
      exact ⟨rfl, h.symm⟩
    · exfalso
      by_cases hsum : 0 < pool.weightSum p weight
      · obtain ⟨a, _, ha⟩ := WeightedRandom_returns_of_pos_sum rnd hv k p weight hne hsum
        rw [ha] at h
        simp at h
      · have hpos : 0 < p.length := List.length_pos.mpr hne
        rw [WeightedRandom_eq, if_neg (by omega), if_pos (by omega)] at h
        exact absurd h (by simp)
  · rintro ⟨rfl, rfl⟩
    simp [pool.WeightedRandom]

/-- The first element of the pool is returned for every mark from zero up to
its transformed weight, the weight itself included: one value more than the
weight. -/
theorem walk_first (b : Ptr) (ps : List Ptr) (w : Int) (ws : List Int) (mark : Int)
    (h0 : 0 ≤ mark) (h1 : mark ≤ w) (hw : w ≤ 9223372036854775807) :
    pool.walk (b :: ps) (w :: ws) mark = some b := by
  simp only [pool.walk]
  rw [if_pos (by rw [wrap64_of_range _ (by omega) (by omega)]; omega)]

/-- C12, at two failing inputs. First, a pool of one backend whose weight is 0:
the sum is 0 and `WeightedRandom` panics in `rand.Int63n(0)`. Second, the four
backends of a balancer fresh from `newNsqBackend`, up and with the sentinel
latency of one minute, in `ModeWeightedLatency`: the sum of the four weights
wraps to `-6907121567159812096` and `pickNext` panics. -/
theorem WeightedRandom_panics_on_nonpositive_sum :
    ([0] : pool) ≠ [] ∧
    pool.weightSum [0] (fun _ => 0) = 0 ∧
    (pool.WeightedRandom zeroSrc 0 [0] (fun _ => 0)).isNone = true ∧
    pool.Up freshHeap [0, 1, 2, 3] = [0, 1, 2, 3] ∧
    pool.weightSum [0, 1, 2, 3] (latencyWeight freshHeap) = -6907121567159812096 ∧
    (pool.WeightedRandom zeroSrc 0 [0, 1, 2, 3] (latencyWeight freshHeap)).isNone = true ∧
    (Balancer.pickNext zeroSrc { heap := freshHeap, draws := 0 }
      { selector := [0, 1, 2, 3], mode := .ModeWeightedLatency, cursor := 0 }).isNone
      = true := by
  refine ⟨by decide, by decide, by decide, by decide, by decide, by decide, by decide⟩

/-- C15, at the failing input: a pool of two backends, both of weight 1. The
sum is `2 = len(P) * w`; of the two values of the draw both return the first
backend and none returns the second. -/
theorem WeightedRandom_equal_weights_not_uniform :
    pool.transformedWeights [0, 1] (fun _ => 1) = [1, 1] ∧
    pool.weightSum [0, 1] (fun _ => 1) = 2 ∧
    pool.weightedPick [0, 1] (fun _ => 1) 0 = some (some 0) ∧
    pool.weightedPick [0, 1] (fun _ => 1) 1 = some (some 0) ∧
    pool.drawCount [0, 1] (fun _ => 1) 0 = 2 ∧
    pool.drawCount [0, 1] (fun _ => 1) 1 = 0 := by
  refine ⟨by decide, by decide, by decide, by decide, by decide, by decide⟩

/-- C16, at the failing input: a pool of two backends, the first of weight 2
and the second of weight 1. The transformed weights are 1 and 2 and the sum is
3; of the three values of the draw two return the first backend and one returns
the second: the backend of smaller weight is returned for fewer values, and
neither count is the transformed weight. -/
theorem WeightedRandom_smaller_weight_drawn_less :
    pool.transformedWeights [0, 1] (fun a => if a = 0 then 2 else 1) = [1, 2] ∧
    pool.weightSum [0, 1] (fun a => if a = 0 then 2 else 1) = 3 ∧
    pool.weightedPick [0, 1] (fun a => if a = 0 then 2 else 1) 0 = some (some 0) ∧
    pool.weightedPick [0, 1] (fun a => if a = 0 then 2 else 1) 1 = some (some 0) ∧
    pool.weightedPick [0, 1] (fun a => if a = 0 then 2 else 1) 2 = some (some 1) ∧
    pool.drawCount [0, 1] (fun a => if a = 0 then 2 else 1) 0 = 2 ∧
    pool.drawCount [0, 1] (fun a => if a = 0 then 2 else 1) 1 = 1 := by
  refine ⟨by decide, by decide, by decide, by decide, by decide, by decide, by decide⟩

/-- Where `ModeWeightedLatency` returns an up backend: whenever a backend is up
and the transformed weights of the up backends have a positive `int64` sum. -/
theorem pickNext_WeightedLatency_of_pos_sum (rnd : RandSrc) (hv : rnd.Valid) (w : World)
    (b : Balancer) (hm : b.mode = .ModeWeightedLatency) (hup : SomeUp w.heap b.selector)
    (hsum : 0 < pool.weightSum (pool.Up w.heap b.selector) (latencyWeight w.heap)) :
    ∃ a w1 b1, Balancer.pickNext rnd w b = some (a, w1, b1) ∧
      a ∈ b.selector ∧ (w.heap a).Up = true := by
  have hne := Up_ne_nil_of_someUp w.heap b.selector hup
  obtain ⟨a, ha, hwr⟩ := WeightedRandom_returns_of_pos_sum rnd hv w.draws
    (pool.Up w.heap b.selector) (latencyWeight w.heap) hne hsum
  have hsel : Balancer.selectByMode rnd w b = some (some a, w.draws + 1, b.cursor) := by
    unfold Balancer.selectByMode
    rw [hm]
    simp only [hwr]
  have hau := (mem_Up _ _ _).1 ha
  exact ⟨a, _, _, pickNext_of_selected rnd w b a _ _ hsel, hau.1, hau.2⟩

theorem weightBounds_const (ws : List Int) (w : Int) (hall : ∀ x ∈ ws, x = w) :
    pool.weightBounds ws (w, w) = (w, w) := by
  induction ws with
  | nil => rfl
  | cons x rest ih =>
    have hx : x = w := hall x (List.mem_cons_self _ _)
    subst hx
    simp only [pool.weightBounds, lt_irrefl, if_false, gt_iff_lt]
    exact ih (fun y hy => hall y (List.mem_cons_of_mem _ hy))

theorem sum_const (ws : List Int) (w : Int) (hall : ∀ x ∈ ws, x = w) :
    ws.sum = (ws.length : Int) * w := by
  induction ws with
  | nil => simp
  | cons x rest ih =>
    have hx : x = w := hall x (List.mem_cons_self _ _)
    rw [List.sum_cons, ih (fun y hy => hall y (List.mem_cons_of_mem _ hy)), hx]
    simp only [List.length_cons]
    push_cast
    ring

/-- The bias of the third loop on equal weights, in general: in a pool of
backends that all have the same positive weight `w`, with `len(P) * w` within
`int64`, the transformed weights are all `w`, the sum is `len(P) * w`, and the
first backend is returned for each of the `w + 1` marks from 0 to `w`; with two
backends or more all of these marks are draws below the sum. -/
theorem WeightedRandom_equal_weights_first_bias (b : Ptr) (ps : List Ptr)
    (weight : Ptr → Int) (w : Int) (hw0 : 0 < w)
    (hall : ∀ a ∈ b :: ps, weight a = w)
    (hsum : ((b :: ps).length : Int) * w ≤ 9223372036854775807) :
    (∀ x ∈ pool.transformedWeights (b :: ps) weight, x = w) ∧
    pool.weightSum (b :: ps) weight = ((b :: ps).length : Int) * w ∧
    (∀ mark : Int, 0 ≤ mark → mark ≤ w →
      pool.weightedPick (b :: ps) weight mark = some (some b)) ∧
    (ps ≠ [] → w < pool.weightSum (b :: ps) weight) := by
  have hlenpos : (1 : Int) ≤ ((b :: ps).length : Int) := by
    simp only [List.length_cons]; push_cast; omega
  have hw1 : w ≤ 9223372036854775807 := by nlinarith
  have hmap : ∀ x ∈ (b :: ps).map weight, x = w := by
    intro x hx
    obtain ⟨a, ha, rfl⟩ := List.mem_map.1 hx
    exact hall a ha
  have hb : weight b = w := hall b (List.mem_cons_self _ _)
  have hbounds : pool.weightBounds ((b :: ps).map weight) (maxInt64, 0) = (w, w) := by
    simp only [List.map_cons, pool.weightBounds, hb]
    have h1 : (if w < maxInt64 then w else maxInt64) = w := by
      unfold maxInt64; split_ifs <;> omega
    have h2 : (if w > 0 then w else 0) = w := by
      rw [if_pos hw0]
    rw [h1, h2]
    exact weightBounds_const _ w (fun x hx => hmap x (by simp [hx]))
  have htw : ∀ x ∈ pool.transformedWeights (b :: ps) weight, x = w := by
    intro x hx
    unfold pool.transformedWeights at hx
    rw [hbounds] at hx
    simp only [pool.transformWeights] at hx
    obtain ⟨y, hy, rfl⟩ := List.mem_map.1 hx
    rw [hmap y hy]
    unfold wrap64; omega
  have hws : pool.weightSum (b :: ps) weight = ((b :: ps).length : Int) * w := by
    unfold pool.weightSum
    rw [sumWeights_eq _ 0 (by decide), zero_add, sum_const _ w htw,
      transformedWeights_length]
    exact wrap64_of_range _ (by nlinarith) hsum
  refine ⟨htw, hws, ?_, ?_⟩
  · intro mark h0 h1
    unfold pool.weightedPick
    rw [WeightedRandom_eq, if_neg (by simp), if_neg (by rw [hws]; nlinarith)]
    simp only [Option.map_some']
    have hlen := transformedWeights_length (b :: ps) weight
    cases htl : pool.transformedWeights (b :: ps) weight with
    | nil => rw [htl] at hlen; simp at hlen
    | cons v vs =>
      have hv : v = w := htw v (by rw [htl]; exact List.mem_cons_self _ _)
      subst hv
      rw [walk_first b ps v vs mark h0 h1 hw1]
  · intro hps
    rw [hws]
    have : (2 : Int) ≤ ((b :: ps).length : Int) := by
      have := List.length_pos.mpr hps
      simp only [List.length_cons]; push_cast; omega
    nlinarith

/-! ## `MinUp`: minimality and tie-break -/

/-- Where `MinUp` does what its doc comment says: when an up backend has a
metric below `math.MaxInt64`, `MinUp` returns an up backend of the pool whose
metric is at most that of every up backend. -/
theorem MinUp_of_unsaturated (h : Heap) (p : pool) (f : Ptr → Int)
    (hlt : ∃ c ∈ p, (h c).Up = true ∧ f c < maxInt64) :
    ∃ a, pool.MinUp h p f = some a ∧ a ∈ p ∧ (h a).Up = true ∧
      ∀ c ∈ p, (h c).Up = true → f a ≤ f c := by
  obtain ⟨c, hc, hcu, hclt⟩ := hlt
  cases hr : pool.MinUp h p f with
  | none =>
    have := (MinUp_eq_none_iff h p f).1 hr c hc hcu
    omega
  | some a => exact ⟨a, rfl, MinUp_some h p f a hr⟩

/-- C13, at the failing input: a pool of two backends, both up, both with
`math.MaxInt64` connections. A backend is up, yet `MinUp` over `Connections()`
returns nil. -/
theorem MinUp_nil_although_up :
    SomeUp (saturatedHeap 9223372036854775807) [1, 2] ∧
    (saturatedHeap 9223372036854775807 1).Up = true ∧
    (saturatedHeap 9223372036854775807 2).Up = true ∧
    (saturatedHeap 9223372036854775807 1).Connections = 9223372036854775807 ∧
    pool.MinUp (saturatedHeap 9223372036854775807) [1, 2]
      (fun a => (saturatedHeap 9223372036854775807 a).Connections) = none := by
  refine ⟨⟨1, by decide, by decide⟩, by decide, by decide, by decide, by decide⟩

/-- C14: when `MinUp` returns a backend, it is the backend at the index `i` the
loop ends with, it is up, and every up backend at an index `j < i` has a metric
strictly greater than the metric of `P[i]`: among the up backends sharing the
least metric the one with the smallest index is returned. -/
theorem MinUp_tiebreak (h : Heap) (p : pool) (f : Ptr → Int) (a : Ptr)
    (hr : pool.MinUp h p f = some a) :
    ∃ (i : Nat) (hi : i < p.length),
      (pool.minUpLoop h f p 0 (-1, maxInt64)).1 = (i : Int) ∧
      p[i] = a ∧ (h p[i]).Up = true ∧
      (∀ (j : Nat) (hj : j < i), (h (p[j])).Up = true → f p[i] < f (p[j])) ∧
      (∀ (j : Nat) (hj : j < p.length), (h (p[j])).Up = true → f p[i] ≤ f (p[j])) := by
  obtain ⟨_, h2, h3⟩ := minUpLoop_spec h f p 0 (-1, maxInt64)
  unfold pool.MinUp at hr
  simp only at hr
  rcases h3 with heq | ⟨i, hi, hpos, hup, hval, _, hbefore⟩
  · rw [heq] at hr
    simp at hr
  · rw [hpos] at hr
    have hnn : ¬ (((0 + i : Nat) : Int) < 0) := by omega
    rw [if_neg hnn] at hr
    have hidx : (((0 + i : Nat) : Int)).toNat = i := by omega
    rw [hidx, List.getElem?_eq_getElem hi] at hr
    refine ⟨i, hi, by rw [hpos]; simp, Option.some.inj hr, hup, ?_, ?_⟩
    · intro j hj hju
      rw [hval]
      exact hbefore j hj hju
    · intro j hj hju
      rw [hval]
      exact h2 _ (List.getElem_mem _) hju

/-- C14, witness: the pool of the test suite with every gauge at 10, so that
the three up backends tie; host-2, the up backend at the smallest index, is
returned. -/
theorem MinUp_tiebreak_witness :
    pool.MinUp (fun a => { testHeap a with connections := 10 }) testPool
      (fun a => ({ testHeap a with connections := 10 } : nsqBackend).Connections)
      = some 1 ∧
    ∃ (i : Nat) (hi : i < testPool.length),
      (pool.minUpLoop (fun a => { testHeap a with connections := 10 })
        (fun a => ({ testHeap a with connections := 10 } : nsqBackend).Connections)
        testPool 0 (-1, maxInt64)).1 = (i : Int) ∧
      testPool[i] = 1 ∧
      (({ testHeap testPool[i] with connections := 10 } : nsqBackend)).Up = true ∧
      (∀ (j : Nat) (hj : j < i),
        (({ testHeap (testPool[j]) with connections := 10 } : nsqBackend)).Up = true →
        ({ testHeap testPool[i] with connections := 10 } : nsqBackend).Connections
          < ({ testHeap (testPool[j]) with connections := 10 } : nsqBackend).Connections) ∧
      (∀ (j : Nat) (hj : j < testPool.length),
        (({ testHeap (testPool[j]) with connections := 10 } : nsqBackend)).Up = true →
        ({ testHeap testPool[i] with connections := 10 } : nsqBackend).Connections
          ≤ ({ testHeap (testPool[j]) with connections := 10 } : nsqBackend).Connections) :=
  ⟨by decide,
    MinUp_tiebreak (fun a => { testHeap a with connections := 10 }) testPool
      (fun a => ({ testHeap a with connections := 10 } : nsqBackend).Connections) 1
      (by decide)⟩

/-! ## `At` is in bounds -/

/-- The method `At` indexes the pool at `atIndex`. -/
theorem At_eq_atIndex (p : pool) (pos : Int) :
    pool.At p pos =
      if (p.length : Int) < 1 then none
      else p[(pool.atIndex (p.length : Int) pos).toNat]? := rfl

/-- The index `At` computes is the absolute value of the position modulo the
length, as an integer. -/
theorem atIndex_eq (pos : Int) (n : Nat) (hpos : 0 < n)
    (hn : (n : Int) ≤ 9223372036854775807) :
    pool.atIndex (n : Int) pos = ((pos.natAbs % n : Nat) : Int) := by
  unfold pool.atIndex
  cases pos with
  | ofNat m =>
    have ht : Int.tmod (Int.ofNat m) (n : Int) = ((m % n : Nat) : Int) := rfl
    rw [ht, if_neg (by omega)]
    rfl
  | negSucc m =>
    have ht : Int.tmod (Int.negSucc m) (n : Int) = -(((m + 1) % n : Nat) : Int) := rfl
    rw [ht]
    have hna : (Int.negSucc m).natAbs = m + 1 := rfl
    rw [hna]
    have hlt : (m + 1) % n < n := Nat.mod_lt _ hpos
    split_ifs with hneg
    · rw [wrap64_of_range _ (by omega) (by omega)]
      omega
    · omega

/-- C17: for every pool whose length is that of a Go slice and every position,
negative ones and the smallest `int64` included, `At` returns nil exactly when
the pool is empty; on a non-empty pool of length `n` the index it computes lies
in `[0, n)`, the element at that index is returned, and for a position
`pos >= 0` the index is `pos mod n`. -/
theorem At_in_bounds (p : pool) (pos : Int)
    (hlen : (p.length : Int) ≤ 9223372036854775807) :
    (pool.At p pos = none ↔ p = []) ∧
    (p ≠ [] →
      0 ≤ pool.atIndex (p.length : Int) pos ∧
      pool.atIndex (p.length : Int) pos < (p.length : Int) ∧
      (∃ (i : Nat) (hi : i < p.length),
        pool.atIndex (p.length : Int) pos = (i : Int) ∧ pool.At p pos = some p[i]) ∧
      (0 ≤ pos → pool.atIndex (p.length : Int) pos = pos % (p.length : Int))) := by
  have hne : p ≠ [] →
      0 ≤ pool.atIndex (p.length : Int) pos ∧
      pool.atIndex (p.length : Int) pos < (p.length : Int) ∧
      (∃ (i : Nat) (hi : i < p.length),
        pool.atIndex (p.length : Int) pos = (i : Int) ∧ pool.At p pos = some p[i]) ∧
      (0 ≤ pos → pool.atIndex (p.length : Int) pos = pos % (p.length : Int)) := by
    intro hp
    have hpos : 0 < p.length := List.length_pos.mpr hp
    have hidx := atIndex_eq pos p.length hpos hlen
    have hlt : pos.natAbs % p.length < p.length := Nat.mod_lt _ hpos
    refine ⟨by rw [hidx]; omega, by rw [hidx]; omega, ⟨_, hlt, hidx, ?_⟩, ?_⟩
    · rw [At_eq p pos hp hlen, List.getElem?_eq_getElem hlt]
    · intro h0
      rw [hidx]
      obtain ⟨m, rfl⟩ := Int.eq_ofNat_of_zero_le h0
      simp
  refine ⟨?_, hne⟩
  constructor
  · intro hnone
    by_contra hp
    obtain ⟨_, _, ⟨i, hi, _, hat⟩, _⟩ := hne hp
    rw [hat] at hnone
    exact absurd hnone (by simp)
  · intro hp
    subst hp
    rfl

/-- C17, witness: the three up backends of the test suite at the positions
`-2`, `4` and the smallest `int64`; the elements at the indices 2, 1 and 2 are
returned. -/
theorem At_in_bounds_witness :
    (([1, 2, 3] : pool).length : Int) ≤ 9223372036854775807 ∧
    ((pool.At [1, 2, 3] (-2) = none ↔ ([1, 2, 3] : pool) = []) ∧
      (([1, 2, 3] : pool) ≠ [] →
        0 ≤ pool.atIndex (([1, 2, 3] : pool).length : Int) (-2) ∧
        pool.atIndex (([1, 2, 3] : pool).length : Int) (-2)
          < (([1, 2, 3] : pool).length : Int) ∧
        (∃ (i : Nat) (hi : i < ([1, 2, 3] : pool).length),
          pool.atIndex (([1, 2, 3] : pool).length : Int) (-2) = (i : Int) ∧
          pool.At [1, 2, 3] (-2) = some ([1, 2, 3] : pool)[i]) ∧
        (0 ≤ (-2 : Int) → pool.atIndex (([1, 2, 3] : pool).length : Int) (-2)
          = (-2) % (([1, 2, 3] : pool).length : Int)))) ∧
    pool.At [1, 2, 3] (-2) = some 3 ∧ pool.At [1, 2, 3] 4 = some 2 ∧
    pool.At [1, 2, 3] (-9223372036854775808) = some 3 :=
  ⟨by decide, At_in_bounds [1, 2, 3] (-2) (by decide), by decide, by decide, by decide⟩

/-! ## The probe -/

theorem updateStatus_latency (b : nsqBackend) (s : Bool) :
    (b.updateStatus s).latency = b.latency := by
  unfold nsqBackend.updateStatus
  cases s <;> simp <;> split_ifs <;> rfl

theorem updateStatus_connections (b : nsqBackend) (s : Bool) :
    (b.updateStatus s).connections = b.connections := by
  unfold nsqBackend.updateStatus
  cases s <;> simp <;> split_ifs <;> rfl

/-- The transition `updateStatus` reads the flag, the counters and the options
only: on a backend that differs in gauge and latency it computes the same flag
and the same counters. -/
theorem updateStatus_gauges_irrelevant (b : nsqBackend) (s : Bool) (l c : Int) :
    (({ b with latency := l, connections := c } : nsqBackend).updateStatus s).up
      = (b.updateStatus s).up ∧
    (({ b with latency := l, connections := c } : nsqBackend).updateStatus s).successes
      = (b.updateStatus s).successes ∧
    (({ b with latency := l, connections := c } : nsqBackend).updateStatus s).failures
      = (b.updateStatus s).failures := by
  unfold nsqBackend.updateStatus
  cases s <;> simp <;> split_ifs <;> simp

/-- C18: a probe whose liveness check fails is exactly the failure transition
`updateStatus(false)` and leaves latency and connections as they were; a probe
whose liveness check succeeds after `d` nanoseconds sets connections to 1
whatever they were, sets latency to `d`, and changes the flag and the counters
as the success transition `updateStatus(true)` does. -/
theorem ping_effects (b : nsqBackend) :
    (b.ping none = b.updateStatus false ∧
      (b.ping none).latency = b.latency ∧
      (b.ping none).connections = b.connections) ∧
    ∀ d : Int,
      (b.ping (some d)).connections = 1 ∧
      (b.ping (some d)).latency = d ∧
      (b.ping (some d)).up = (b.updateStatus true).up ∧
      (b.ping (some d)).successes = (b.updateStatus true).successes ∧
      (b.ping (some d)).failures = (b.updateStatus true).failures ∧
      (b.ping (some d)).opt = b.opt ∧
      b.ping (some d) =
        { b.updateStatus true with latency := d, connections := 1 } := by
  refine ⟨⟨rfl, updateStatus_latency b false, updateStatus_connections b false⟩, ?_⟩
  intro d
  have hg := updateStatus_gauges_irrelevant b true d 1
  have hc : (b.ping (some d)).connections = 1 := by
    simp only [nsqBackend.ping]; rw [updateStatus_connections]
  have hl : (b.ping (some d)).latency = d := by
    simp only [nsqBackend.ping]; rw [updateStatus_latency]
  have ho : (b.ping (some d)).opt = b.opt := by
    simp only [nsqBackend.ping]; rw [updateStatus_opt]
  have hu : (b.ping (some d)).up = (b.updateStatus true).up := hg.1
  have hs : (b.ping (some d)).successes = (b.updateStatus true).successes := hg.2.1
  have hf : (b.ping (some d)).failures = (b.updateStatus true).failures := hg.2.2
  refine ⟨hc, hl, hu, hs, hf, ho, ?_⟩
  cases hp : b.ping (some d) with
  | mk o u s f c l =>
    rw [hp] at hc hl ho hu hs hf
    simp only at hc hl ho hu hs hf
    simp only [nsqBackend.mk.injEq]
    rw [updateStatus_opt]
    exact ⟨ho, hu, hs, hf, hc, hl⟩

/-! ## The counters -/

/-- After a success the failure counter is zero and after a failure the success
counter is zero, whatever the thresholds are. -/
theorem updateStatus_resets (b : nsqBackend) :
    (b.updateStatus true).failures = 0 ∧ (b.updateStatus false).successes = 0 := by
  unfold nsqBackend.updateStatus
  constructor
  · simp only [if_true]; split_ifs <;> rfl
  · simp only [Bool.false_eq_true, if_false]; split_ifs <;> rfl

/-- While both thresholds are at most `2^31 - 2` the counter invariant is kept
by every update. -/
theorem updateStatus_counterInv (b : nsqBackend) (s : Bool)
    (hR : b.opt.getRise ≤ 2147483646) (hF : b.opt.getFall ≤ 2147483646)
    (h : CounterInv b) : CounterInv (b.updateStatus s) := by
  obtain ⟨_, hs0, hs1, hf0, hf1⟩ := h
  have hr := getRise_pos b.opt
  have hf := getFall_pos b.opt
  unfold CounterInv
  rw [updateStatus_opt]
  cases s
  · have hw : wrap32 (b.failures + 1) = b.failures + 1 :=
      wrap32_of_range _ (by omega) (by omega)
    have hsucc : (b.updateStatus false).successes = 0 := (updateStatus_resets b).2
    have hfail : (b.updateStatus false).failures =
        if b.failures + 1 > b.opt.getFall then b.failures else b.failures + 1 := by
      unfold nsqBackend.updateStatus
      simp only [Bool.false_eq_true, if_false, hw]
      split_ifs with h1 h2 h3
      · exact wrap32_of_range _ (by omega) (by omega) |>.trans (by omega)
      · rfl
      · rfl
      · rfl
    rw [hsucc, hfail]
    split_ifs <;> omega
  · have hw : wrap32 (b.successes + 1) = b.successes + 1 :=
      wrap32_of_range _ (by omega) (by omega)
    have hfail : (b.updateStatus true).failures = 0 := (updateStatus_resets b).1
    have hsucc : (b.updateStatus true).successes =
        if b.successes + 1 > b.opt.getRise then b.successes else b.successes + 1 := by
      unfold nsqBackend.updateStatus
      simp only [if_true, hw]
      split_ifs with h1 h2 h3
      · exact wrap32_of_range _ (by omega) (by omega) |>.trans (by omega)
      · rfl
      · rfl
      · rfl
    rw [hsucc, hfail]
    split_ifs <;> omega

/-- The counter invariant in every reachable state, while both thresholds are
at most `2^31 - 2`. -/
theorem reachable_counterInv (opt : Options) (hR : opt.getRise ≤ 2147483646)
    (hF : opt.getFall ≤ 2147483646) (b : nsqBackend) (hb : Reachable opt b) :
    CounterInv b := by
  obtain ⟨t, rfl⟩ := hb
  have hgen : ∀ (t : List Bool) (b0 : nsqBackend), b0.opt = opt → CounterInv b0 →
      CounterInv (runUpdates b0 t) := by
    intro t
    induction t with
    | nil => intro b0 _ h0; exact h0
    | cons s t ih =>
      intro b0 ho h0
      simp only [runUpdates]
      exact ih _ (by rw [updateStatus_opt, ho])
        (updateStatus_counterInv b0 s (by rw [ho]; exact hR) (by rw [ho]; exact hF) h0)
  have hr := getRise_pos opt
  have hf := getFall_pos opt
  have hr0 : (0 : Int) ≤ opt.getRise := by omega
  have hf0 : (0 : Int) ≤ opt.getFall := by omega
  exact hgen t _ rfl ⟨Or.inl rfl, le_refl _, hr0, le_refl _, hf0⟩

/-- With a success threshold of `2^31 - 1` or more the success counter is never
undone: each success adds one to it as an `int32`. -/
theorem updateStatus_true_successes_of_large (b : nsqBackend)
    (hR : 2147483647 ≤ b.opt.getRise) :
    (b.updateStatus true).successes = wrap32 (b.successes + 1) := by
  unfold nsqBackend.updateStatus
  have hr := wrap32_range (b.successes + 1)
  simp only [if_true]
  rw [if_neg (by omega)]
  split_ifs <;> rfl

theorem succeedTimes_successes_of_large (k : Nat) (b : nsqBackend)
    (hR : 2147483647 ≤ b.opt.getRise)
    (h1 : -2147483648 ≤ b.successes) (h2 : b.successes ≤ 2147483647) :
    (succeedTimes k b).successes = wrap32 (b.successes + k) := by
  induction k generalizing b with
  | zero =>
    simp only [succeedTimes]
    unfold wrap32; omega
  | succ k ih =>
    simp only [succeedTimes]
    have hstep := updateStatus_true_successes_of_large b hR
    have hr := wrap32_range (b.successes + 1)
    rw [ih _ (by rw [updateStatus_opt]; exact hR) (by rw [hstep]; exact hr.1)
      (by rw [hstep]; exact hr.2), hstep]
    push_cast
    unfold wrap32; omega

/-- A run of successes is a series of `updateStatus` calls. -/
theorem runUpdates_replicate_true (k : Nat) (b : nsqBackend) :
    runUpdates b (List.replicate k true) = succeedTimes k b := by
  induction k generalizing b with
  | zero => rfl
  | succ k ih =>
    rw [List.replicate_succ]
    simp only [runUpdates, succeedTimes]
    exact ih _

/-- C19, at the failing input `Options{Rise: 2147483647}`: the state after
`2147483648` consecutive `updateStatus(true)` calls on the freshly built
backend is reachable, `getRise()` is `2147483647`, and the success counter is
`-2147483648`, below zero. -/
theorem success_counter_wraps_negative :
    (Options.mk "127.0.0.1:4150" 0 2147483647 0).getRise = 2147483647 ∧
    Reachable (Options.mk "127.0.0.1:4150" 0 2147483647 0)
      (succeedTimes 2147483648
        (initialBackend (Options.mk "127.0.0.1:4150" 0 2147483647 0))) ∧
    (succeedTimes 2147483648
      (initialBackend (Options.mk "127.0.0.1:4150" 0 2147483647 0))).successes
      = -2147483648 ∧
    ¬ CounterInv (succeedTimes 2147483648
      (initialBackend (Options.mk "127.0.0.1:4150" 0 2147483647 0))) := by
  have hs : (succeedTimes 2147483648
      (initialBackend (Options.mk "127.0.0.1:4150" 0 2147483647 0))).successes
      = -2147483648 := by
    rw [succeedTimes_successes_of_large 2147483648 _ (by decide) (by decide) (by decide)]
    decide
  refine ⟨by decide, ⟨List.replicate 2147483648 true, ?_⟩, hs, ?_⟩
  · rw [runUpdates_replicate_true]
  · intro hinv
    have := hinv.2.1
    rw [hs] at this
    omega

/-! ## The weight of `ModeWeightedLatency` -/

/-- Where the weight is the square of the latency: for a latency `L` with
`0 <= L <= 3037000499` nanoseconds (a little over three seconds) the `int64`
product `factor * factor` is `L * L`, it is not negative, and it grows with the
latency. -/
theorem latencyWeight_exact (h : Heap) (a c : Ptr)
    (ha0 : 0 ≤ (h a).Latency) (ha1 : (h a).Latency ≤ 3037000499)
    (hc0 : 0 ≤ (h c).Latency) (hc1 : (h c).Latency ≤ 3037000499) :
    latencyWeight h a = (h a).Latency * (h a).Latency ∧
    0 ≤ latencyWeight h a ∧
    ((h a).Latency ≤ (h c).Latency → latencyWeight h a ≤ latencyWeight h c) ∧
    ((h a).Latency < (h c).Latency → latencyWeight h a < latencyWeight h c) := by
  have hsq : ∀ x : Int, 0 ≤ x → x ≤ 3037000499 →
      0 ≤ x * x ∧ x * x ≤ 9223372036854775807 := by
    intro x h0 h1
    constructor
    · exact mul_nonneg h0 h0
    · have : x * x ≤ 3037000499 * 3037000499 := mul_le_mul h1 h1 h0 (by omega)
      omega
  have hwa : latencyWeight h a = (h a).Latency * (h a).Latency := by
    unfold latencyWeight
    exact wrap64_of_range _ (by have := hsq _ ha0 ha1; omega) (hsq _ ha0 ha1).2
  have hwc : latencyWeight h c = (h c).Latency * (h c).Latency := by
    unfold latencyWeight
    exact wrap64_of_range _ (by have := hsq _ hc0 hc1; omega) (hsq _ hc0 hc1).2
  refine ⟨hwa, by rw [hwa]; exact (hsq _ ha0 ha1).1, ?_, ?_⟩
  · intro hle
    rw [hwa, hwc]
    exact mul_le_mul hle hle ha0 hc0
  · intro hlt
    rw [hwa, hwc]
    exact mul_lt_mul'' hlt hlt ha0 ha0

/-- C20, at the failing input: a backend whose latency is still the sentinel
`int64(time.Minute)` written by `newNsqBackend`. The latency lies between zero
and one minute, the weight computed is `2884905626637434880`, and the square of
the latency is `3600000000000000000000`. A backend with a latency of four
seconds gets a negative weight, smaller than the weight of a backend with a
latency of one second. -/
theorem latencyWeight_wraps_at_sentinel :
    (freshHeap 0).Latency = minute ∧ 0 ≤ (freshHeap 0).Latency ∧
    (freshHeap 0).Latency ≤ minute ∧
    latencyWeight freshHeap 0 = 2884905626637434880 ∧
    (freshHeap 0).Latency * (freshHeap 0).Latency = 3600000000000000000000 ∧
    latencyWeight freshHeap 0 ≠ (freshHeap 0).Latency * (freshHeap 0).Latency ∧
    latencyWeight (fun _ => { initialBackend (mockOpts "host-1:4150") with
      latency := 4 * second }) 0 = -2446744073709551616 ∧
    latencyWeight (fun _ => { initialBackend (mockOpts "host-1:4150") with
      latency := 4 * second }) 0 <
      latencyWeight (fun _ => { initialBackend (mockOpts "host-1:4150") with
        latency := second }) 0 := by
  refine ⟨by decide, by decide, by decide, by decide, by decide, by decide, by decide,
    by decide⟩

end NsqBalancer
